import Mathlib

/-!
Verification of the tiff66 TIFF 6.0 codec (garyhouston/tiff66) against its
natural-language specification.  The Go source is shallowly embedded: byte
buffers are lists of naturals (reduced mod 256, matching the Go byte type),
machine integers are naturals with explicit reduction mod 2^16 or 2^32 where
Go arithmetic wraps, and code paths that can only end in a Go runtime panic
are modelled with Option (none = panic).  Definitions follow the source file
tiff66.go; the relevant revision is the one containing GetIFDTree,
putIFDTreeTIFF and IFDNode.Fix (the first of the two revisions present in
the repository snapshot).
-/

namespace Tiff66

/-- Go binary.ByteOrder restricted to the two orders the codec uses. -/
inductive ByteOrder where
  | little
  | big
deriving DecidableEq, Repr

/-- A byte buffer.  Entries are naturals; every read reduces mod 256, which
is a no-op for the values a Go byte slice can hold. -/
abbrev Bytes := List Nat

/-- Read one byte, defaulting to 0.  Used only where the Go code has already
established that the index is in bounds. -/
def byteAt (buf : Bytes) (i : Nat) : Nat := buf.getD i 0 % 256

/-- Checked byte read; none models a Go index-out-of-range panic. -/
def byteAtP (buf : Bytes) (i : Nat) : Option Nat := (buf.get? i).map (· % 256)

/-- binary.ByteOrder.Uint16 on the slice starting at pos (unchecked). -/
def uint16At (order : ByteOrder) (buf : Bytes) (pos : Nat) : Nat :=
  match order with
  | .little => byteAt buf pos + 256 * byteAt buf (pos + 1)
  | .big => 256 * byteAt buf pos + byteAt buf (pos + 1)

/-- binary.ByteOrder.Uint32 on the slice starting at pos (unchecked). -/
def uint32At (order : ByteOrder) (buf : Bytes) (pos : Nat) : Nat :=
  match order with
  | .little =>
      byteAt buf pos + 256 * byteAt buf (pos + 1) + 65536 * byteAt buf (pos + 2) +
        16777216 * byteAt buf (pos + 3)
  | .big =>
      16777216 * byteAt buf pos + 65536 * byteAt buf (pos + 1) + 256 * byteAt buf (pos + 2) +
        byteAt buf (pos + 3)

/-- Checked Uint16 read: Go panics when fewer than two bytes remain. -/
def uint16AtP (order : ByteOrder) (buf : Bytes) (pos : Nat) : Option Nat :=
  if pos + 2 ≤ buf.length then some (uint16At order buf pos) else none

/-- Checked Uint32 read: Go panics when fewer than four bytes remain. -/
def uint32AtP (order : ByteOrder) (buf : Bytes) (pos : Nat) : Option Nat :=
  if pos + 4 ≤ buf.length then some (uint32At order buf pos) else none

/-- Store one byte (Go assignment buf[i] = byte(v)).  Out-of-range stores do
not occur on the paths we verify; List.set is then a no-op. -/
def setByte (buf : Bytes) (i : Nat) (v : Nat) : Bytes := buf.set i (v % 256)

/-- binary.ByteOrder.PutUint16. -/
def putUint16At (order : ByteOrder) (buf : Bytes) (pos : Nat) (v : Nat) : Bytes :=
  match order with
  | .little => setByte (setByte buf pos v) (pos + 1) (v / 256)
  | .big => setByte (setByte buf pos (v / 256)) (pos + 1) v

/-- binary.ByteOrder.PutUint32. -/
def putUint32At (order : ByteOrder) (buf : Bytes) (pos : Nat) (v : Nat) : Bytes :=
  match order with
  | .little =>
      setByte (setByte (setByte (setByte buf pos v) (pos + 1) (v / 256)) (pos + 2) (v / 65536))
        (pos + 3) (v / 16777216)
  | .big =>
      setByte (setByte (setByte (setByte buf pos (v / 16777216)) (pos + 1) (v / 65536)) (pos + 2)
        (v / 256)) (pos + 3) v

/-- Go copy(buf[pos:], src): overwrite bytes from pos on, stopping at the end
of buf (the stores beyond the end are no-ops on List.set). -/
def copyBytes (buf : Bytes) (pos : Nat) : Bytes → Bytes
  | [] => buf
  | b :: rest => copyBytes (setByte buf pos b) (pos + 1) rest

/-- Go subslice buf[pos : pos+n] as a value. -/
def sliceBytes (buf : Bytes) (pos n : Nat) : Bytes := (buf.drop pos).take n

/-- Two's-complement reading of an 8-bit byte (Go int8 conversion). -/
def toInt8 (n : Nat) : Int := if n < 128 then (n : Int) else (n : Int) - 256

/-- Two's-complement reading of a 16-bit value (Go int16 conversion). -/
def toInt16 (n : Nat) : Int := if n < 32768 then (n : Int) else (n : Int) - 65536

/-- Two's-complement reading of a 32-bit value (Go int32 conversion). -/
def toInt32 (n : Nat) : Int := if n < 2147483648 then (n : Int) else (n : Int) - 4294967296

/-- Go uint32(v) conversion of a signed value (wraps mod 2^32). -/
def uint32OfInt (v : Int) : Nat := (v % (4294967296 : Int)).toNat

/-- Go uint16(v) conversion of a signed value (wraps mod 2^16). -/
def uint16OfInt (v : Int) : Nat := (v % (65536 : Int)).toNat

/-- Go uint8(v) conversion of a signed value (wraps mod 2^8). -/
def uint8OfInt (v : Int) : Nat := (v % (256 : Int)).toNat

/-- Go uint32 addition (wraps mod 2^32); used to mirror the overflow checks
in the source. -/
def add32 (a b : Nat) : Nat := (a + b) % 4294967296

/-- Byte size of a single value of each TIFF type (the TypeSizes map; 0 for
an unknown type, as Type.Size returns). -/
def typeSize : Nat → Nat
  | 1 => 1
  | 2 => 1
  | 3 => 2
  | 4 => 4
  | 5 => 8
  | 6 => 1
  | 7 => 1
  | 8 => 2
  | 9 => 4
  | 10 => 8
  | 11 => 4
  | 12 => 8
  | 13 => 4
  | _ => 0

/-- A TIFF field; an IFD entry and its data (struct Field). -/
structure Field where
  tag : Nat
  type : Nat
  count : Nat
  data : Bytes
deriving DecidableEq, Repr

/-- Field data size (Field.Size): Go multiplies in uint32, which wraps. -/
def Field.size (f : Field) : Nat := typeSize f.type * f.count % 4294967296

/-- Return a BYTE field's ith data element. -/
def Field.Byte (f : Field) (i : Nat) : Nat := byteAt f.data i

/-- Set a BYTE field's ith data element. -/
def Field.PutByte (f : Field) (v i : Nat) : Field :=
  { f with data := setByte f.data i v }

/-- Return a SHORT field's ith data element. -/
def Field.Short (f : Field) (i : Nat) (order : ByteOrder) : Nat :=
  uint16At order f.data (2 * i)

/-- Set a SHORT field's ith data element. -/
def Field.PutShort (f : Field) (v i : Nat) (order : ByteOrder) : Field :=
  { f with data := putUint16At order f.data (2 * i) v }

/-- Return a LONG field's ith data element. -/
def Field.Long (f : Field) (i : Nat) (order : ByteOrder) : Nat :=
  uint32At order f.data (4 * i)

/-- Checked variant of Field.Long: none models the Go panic when the data
slice is too short for index i. -/
def Field.LongP (f : Field) (i : Nat) (order : ByteOrder) : Option Nat :=
  uint32AtP order f.data (4 * i)

/-- Set a LONG field's ith data element. -/
def Field.PutLong (f : Field) (v i : Nat) (order : ByteOrder) : Field :=
  { f with data := putUint32At order f.data (4 * i) v }

/-- Return a SBYTE field's ith data element. -/
def Field.SByte (f : Field) (i : Nat) : Int := toInt8 (byteAt f.data i)

/-- Set a SBYTE field's ith data element. -/
def Field.PutSByte (f : Field) (v : Int) (i : Nat) : Field :=
  { f with data := setByte f.data i (uint8OfInt v) }

/-- Return a SSHORT field's ith data element. -/
def Field.SShort (f : Field) (i : Nat) (order : ByteOrder) : Int :=
  toInt16 (uint16At order f.data (2 * i))

/-- Set a SSHORT field's ith data element. -/
def Field.PutSShort (f : Field) (v : Int) (i : Nat) (order : ByteOrder) : Field :=
  { f with data := putUint16At order f.data (2 * i) (uint16OfInt v) }

/-- Return a SLONG field's ith data element. -/
def Field.SLong (f : Field) (i : Nat) (order : ByteOrder) : Int :=
  toInt32 (uint32At order f.data (4 * i))

/-- Set a SLONG field's ith data element. -/
def Field.PutSLong (f : Field) (v : Int) (i : Nat) (order : ByteOrder) : Field :=
  { f with data := putUint32At order f.data (4 * i) (uint32OfInt v) }

/-- Return an integral-valued field's ith data element (AnyInteger); none
models the panic on a non-integral field type. -/
def Field.AnyInteger (f : Field) (i : Nat) (order : ByteOrder) : Option Int :=
  match f.type with
  | 1 => some (f.Byte i : Nat)
  | 3 => some (f.Short i order : Nat)
  | 4 => some (f.Long i order : Nat)
  | 6 => some (f.SByte i)
  | 8 => some (f.SShort i order)
  | 9 => some (f.SLong i order)
  | _ => none

/-- Set an integral-valued field's ith data element (PutAnyInteger); the
panic here is the default case of the switch, so integral types return
normally. -/
def Field.PutAnyInteger (f : Field) (v : Int) (i : Nat) (order : ByteOrder) : Option Field :=
  match f.type with
  | 1 => some (f.PutByte (uint8OfInt v) i)
  | 3 => some (f.PutShort (uint16OfInt v) i order)
  | 4 => some (f.PutLong (uint32OfInt v) i order)
  | 6 => some (f.PutSByte v i)
  | 8 => some (f.PutSShort v i order)
  | 9 => some (f.PutSLong v i order)
  | _ => none

/-- Return a RATIONAL field's ith data element. -/
def Field.Rational (f : Field) (i : Nat) (order : ByteOrder) : Nat × Nat :=
  (uint32At order f.data (8 * i), uint32At order f.data (8 * i + 4))

/-- Set a RATIONAL field's ith data element. -/
def Field.PutRational (f : Field) (n d i : Nat) (order : ByteOrder) : Field :=
  { f with data := putUint32At order (putUint32At order f.data (8 * i) n) (8 * i + 4) d }

/-- Return a SRATIONAL field's ith data element. -/
def Field.SRational (f : Field) (i : Nat) (order : ByteOrder) : Int × Int :=
  (toInt32 (uint32At order f.data (8 * i)), toInt32 (uint32At order f.data (8 * i + 4)))

/-- Set a SRATIONAL field's ith data element. -/
def Field.PutSRational (f : Field) (n d : Int) (i : Nat) (order : ByteOrder) : Field :=
  let written :=
    putUint32At order (putUint32At order f.data (8 * i) (uint32OfInt n)) (8 * i + 4)
      (uint32OfInt d)
  { f with data := written }

/-- Return a rational-valued field's ith data element (AnyRational); none
models the panic on a non-rational field type.  The RATIONAL and SRATIONAL
cases return before reaching the panic statement. -/
def Field.AnyRational (f : Field) (i : Nat) (order : ByteOrder) : Option (Int × Int) :=
  match f.type with
  | 5 => some ((f.Rational i order).1, (f.Rational i order).2)
  | 10 => some (f.SRational i order)
  | _ => none

/-- Set a rational-valued field's ith data element (PutAnyRational).  In the
Go source the panic statement follows the switch instead of being its
default case (contrast PutAnyInteger), so after the RATIONAL or SRATIONAL
case writes through the data slice, control still reaches the unconditional
panic and the call never returns normally; none models that panic for every
field type. -/
def Field.PutAnyRational (f : Field) (n d : Int) (i : Nat) (order : ByteOrder) : Option Field :=
  match f.type with
  | 5 =>
      let _written := f.PutRational (uint32OfInt n) (uint32OfInt d) i order
      none
  | 10 =>
      let _written := f.PutSRational n d i order
      none
  | _ => none

/-- Return an ASCII field data as a string (Field.ASCII).  Go indexes
Data[len(Data)-1] without an emptiness check, so a zero-count field with an
empty data slice panics; none models that panic.  Otherwise one trailing NUL
is trimmed if present. -/
def Field.ASCII (f : Field) : Option Bytes :=
  if f.data.length = 0 then none
  else if byteAt f.data (f.data.length - 1) = 0 then some f.data.dropLast
  else some f.data

/-- The size of a TIFF header (HeaderSize). -/
def HeaderSize : Nat := 8

/-- Result triple of GetHeader: validity, byte order (nil while the order has
not been decided), IFD position. -/
structure Header where
  valid : Bool
  order : Option ByteOrder
  ifdPos : Nat
deriving DecidableEq, Repr

/-- Magic and offset part of GetHeader, after the byte-order mark matched. -/
def getHeaderTail (buf : Bytes) (order : ByteOrder) : Option Header :=
  match uint16AtP order buf 2 with
  | none => none
  | some magic =>
      if magic ≠ 42 then some ⟨false, some order, 0⟩
      else
        match uint32AtP order buf 4 with
        | none => none
        | some ifdPos =>
            if ifdPos = 0 then some ⟨false, some order, 0⟩
            else some ⟨true, some order, ifdPos⟩

/-- Try to read a TIFF header from a slice (GetHeader).  The source indexes
buf[0] and buf[1] and then reads the magic and offset words with no length
check, so short buffers can panic (modelled by none) instead of returning
the invalid triple. -/
def GetHeader (buf : Bytes) : Option Header :=
  match byteAtP buf 0, byteAtP buf 1 with
  | some b0, some b1 =>
      if b0 = 0x49 ∧ b1 = 0x49 then getHeaderTail buf ByteOrder.little
      else if b0 = 0x4d ∧ b1 = 0x4d then getHeaderTail buf ByteOrder.big
      else some ⟨false, none, 0⟩
  | _, _ => none

/-- Create a TIFF header at the beginning of a byte slice (PutHeader). -/
def PutHeader (buf : Bytes) (order : ByteOrder) (ifdPos : Nat) : Bytes :=
  match order with
  | .little =>
      putUint32At order (putUint16At order (setByte (setByte buf 0 0x49) 1 0x49) 2 42) 4 ifdPos
  | .big =>
      putUint32At order (putUint16At order (setByte (setByte buf 0 0x4d) 1 0x4d) 2 42) 4 ifdPos

/-- The byte order GetHeader would select from the byte-order mark, used to
state the header characterization compactly. -/
def headerOrder (buf : Bytes) : ByteOrder :=
  if byteAt buf 0 = 0x4d then ByteOrder.big else ByteOrder.little

/-- Tag constants used by the codec (values from the source constant block). -/
def StripOffsets : Nat := 0x111

def StripByteCounts : Nat := 0x117

def FreeOffsets : Nat := 0x120

def FreeByteCounts : Nat := 0x121

def TileOffsets : Nat := 0x144

def TileByteCounts : Nat := 0x145

def SubIFDs : Nat := 0x14A

def JPEGInterchangeFormat : Nat := 0x201

def JPEGInterchangeFormatLength : Nat := 0x202

def JPEGQTables : Nat := 0x207

def JPEGDCTables : Nat := 0x208

def JPEGACTables : Nat := 0x209

def ExifIFD : Nat := 0x8769

def GPSIFD : Nat := 0x8825

def Make : Nat := 0x10F

def Model : Nat := 0x110

def interOpIFD : Nat := 0xA005

def makerNote : Nat := 0x927C

def Nikon2PreviewIFD : Nat := 0x11

def Nikon2NikonScanIFD : Nat := 0xE10

def Nikon2MakerNoteVersion : Nat := 0x1

/-- IDs of fields that specify image data (ImageDataSpec): an offset-field
tag and a size-field tag (0 when unused). -/
structure ImageDataSpec where
  offsetTag : Nat
  sizeTag : Nat
deriving DecidableEq, Repr

/-- Image data segments for a single pair of fields (ImageData). -/
structure ImageData where
  offsetTag : Nat
  sizeTag : Nat
  segments : List Bytes
deriving DecidableEq, Repr

/-- Fields and image data for a single IFD (IFD_T). -/
structure IFD_T where
  order : ByteOrder
  fields : List Field
  imageData : List ImageData
deriving DecidableEq, Repr

/-- Image data specifications for TIFF IFDs (TIFFImageData). -/
def TIFFImageData : List ImageDataSpec :=
  [⟨StripOffsets, StripByteCounts⟩, ⟨TileOffsets, TileByteCounts⟩, ⟨FreeOffsets, FreeByteCounts⟩,
    ⟨JPEGInterchangeFormat, JPEGInterchangeFormatLength⟩, ⟨JPEGQTables, 0⟩, ⟨JPEGDCTables, 0⟩,
    ⟨JPEGACTables, 0⟩]

/-- Serialized size of an IFD table (IFD_T.Size): entry count word, 12 bytes
per entry, next pointer word. -/
def IFD_T.size (ifd : IFD_T) : Nat := 2 + ifd.fields.length * 12 + 4

/-- Return the fields in the IFD that match the given tags, in field order
(IFD_T.FindFields; the Go version returns pointers into the array). -/
def IFD_T.FindFields (ifd : IFD_T) (tags : List Nat) : List Field :=
  ifd.fields.foldr
    (fun f acc => if tags.any (fun t => f.tag = t) then f :: acc else acc) []

/-- Comparator used by the field sorts (sort.Slice with tag less-than). -/
instance fieldTagLeDecidable : DecidableRel (fun a b : Field => a.tag ≤ b.tag) :=
  fun a b => Nat.decLe a.tag b.tag

instance fieldTagLeTotal : IsTotal Field (fun a b : Field => a.tag ≤ b.tag) :=
  ⟨fun a b => Nat.le_total a.tag b.tag⟩

instance fieldTagLeTrans : IsTrans Field (fun a b : Field => a.tag ≤ b.tag) :=
  ⟨fun _ _ _ hab hbc => Nat.le_trans hab hbc⟩

/-- Sort a field list into non-decreasing tag order.  The Go code calls
sort.Slice with the strict tag comparator, an unstable sort whose result is
some permutation in non-decreasing tag order; insertion sort is one such
sort and stands in for it. -/
def sortFields (fields : List Field) : List Field :=
  List.insertionSort (fun a b : Field => a.tag ≤ b.tag) fields

/-- Add some fields to an IFD (IFD_T.AddFields).  The source appends the new
fields (reusing slice capacity when available, which does not change the
resulting list) and then sorts the whole list by tag; but when the added
list is empty it returns before sorting, leaving an unsorted receiver
unsorted. -/
def IFD_T.AddFields (ifd : IFD_T) (fields : List Field) : IFD_T :=
  if fields.length = 0 then ifd
  else { ifd with fields := sortFields (ifd.fields ++ fields) }

/-- Error kind constants of this revision (ErrIFDPos and friends). -/
def ErrIFDPos : Nat := 1

def ErrIFDTruncated : Nat := 2

def ErrFieldData : Nat := 3

def ErrImageData : Nat := 4

/-- Error value returned by GetIFD (GetIFDError). -/
structure GetIFDError where
  errType : Nat
  ifdPos : Nat
  ifdEntries : Nat
  fieldTag : Nat
deriving DecidableEq, Repr

/-- The pair of fields recorded for one ImageDataSpec while reading a table
(imageDataFields; the Go version stores pointers into the field array, whose
final values these are). -/
structure ImageDataFields where
  offsetField : Option Field
  sizeField : Option Field
deriving DecidableEq, Repr

/-- The last field in the list carrying the given tag, or none.  Models the
repeated overwriting of the imageDataFields pointers inside the GetIFD entry
loop, where a later match replaces an earlier one. -/
def lastFieldWithTag (fields : List Field) (tag : Nat) : Option Field :=
  fields.foldl (fun acc f => if f.tag = tag then some f else acc) none

/-- Sum of the first k BITS bytes at offset, for the old-style JPEG DC/AC
table size computation in getImageData. -/
def bitsSum (buf : Bytes) (offset : Nat) : Nat → Nat
  | 0 => 0
  | k + 1 => bitsSum buf offset k + byteAt buf (offset + k)

/-- One iteration of the segment loop of getImageData: compute the jth
segment for an offset field (and optional size field).  none models a Go
panic (AnyInteger or Long on unsuitable data); Except.error models the
returned GetIFDError (type ErrImageData, position and entry count patched in
by the caller). -/
def getSegment (buf : Bytes) (order : ByteOrder) (offF : Field) (sizeF : Option Field)
    (j : Nat) : Option (Except GetIFDError Bytes) :=
  let bufsize := buf.length
  let offsize : Option (Except GetIFDError (Nat × Nat)) :=
    if offF.tag = JPEGQTables then
      match offF.LongP j order with
      | none => none
      | some offset => some (Except.ok (offset, 64))
    else if offF.tag = JPEGDCTables ∨ offF.tag = JPEGACTables then
      match offF.LongP j order with
      | none => none
      | some offset =>
          let e15 := (offset + 15) % 4294967296
          if e15 < offset ∨ e15 ≥ bufsize then some (Except.error ⟨ErrImageData, 0, 0, offF.tag⟩)
          else some (Except.ok (offset, 16 + bitsSum buf offset 16))
    else
      match sizeF with
      | none => some (Except.ok (0, 0))
      | some sf =>
          match offF.AnyInteger j order, sf.AnyInteger j order with
          | some ov, some sv => some (Except.ok (uint32OfInt ov, uint32OfInt sv))
          | _, _ => none
  match offsize with
  | none => none
  | some (Except.error e) => some (Except.error e)
  | some (Except.ok (offset, size)) =>
      if size > 0 then
        let last := (offset + size - 1) % 4294967296
        if last < offset ∨ last > bufsize then some (Except.error ⟨ErrImageData, 0, 0, offF.tag⟩)
        else some (Except.ok (sliceBytes buf offset size))
      else some (Except.ok [])

/-- The segment loop of getImageData over indices 0..count-1 (given as a
list). -/
def getSegmentsLoop (buf : Bytes) (order : ByteOrder) (offF : Field) (sizeF : Option Field) :
    List Nat → Option (Except GetIFDError (List Bytes))
  | [] => some (Except.ok [])
  | j :: rest =>
      match getSegment buf order offF sizeF j with
      | none => none
      | some (Except.error e) => some (Except.error e)
      | some (Except.ok seg) =>
          match getSegmentsLoop buf order offF sizeF rest with
          | none => none
          | some (Except.error e) => some (Except.error e)
          | some (Except.ok segs) => some (Except.ok (seg :: segs))

/-- Build an ImageData structure from a buffer (getImageData): for each spec
whose offset field was seen, materialize its segments. -/
def getImageData (buf : Bytes) (order : ByteOrder) :
    List ImageDataFields → Option (Except GetIFDError (List ImageData))
  | [] => some (Except.ok [])
  | e :: rest =>
      match e.offsetField with
      | none => getImageData buf order rest
      | some offF =>
          match getSegmentsLoop buf order offF e.sizeField (List.range offF.count) with
          | none => none
          | some (Except.error err) => some (Except.error err)
          | some (Except.ok segs) =>
              let sizeTag := match e.sizeField with | none => 0 | some sf => sf.tag
              match getImageData buf order rest with
              | none => none
              | some (Except.error err) => some (Except.error err)
              | some (Except.ok ids) => some (Except.ok (⟨offF.tag, sizeTag, segs⟩ :: ids))

/-- The zero Field value, content of the entries of the Go field array that
were never assigned before an early return. -/
def defaultField : Field := ⟨0, 0, 0, []⟩

/-- The entry loop of GetIFD.  Reads `remaining` 12-byte entries starting at
pos.  On a field whose out-of-line data fails the bounds check it stops and
returns the Go field array content as of that moment (the offending entry
with tag, type and count assigned but no data, and zero fields after it)
together with the offending tag; no later entry of the table is parsed.  On
success it also returns the data position of the last field tagged makerNote
(the effect of the fieldProc closure installed for Exif IFDs). -/
def getFieldsLoop (buf : Bytes) (order : ByteOrder) :
    (remaining : Nat) → (pos : Nat) →
    Except (List Field × Nat) (List Field × Option Nat)
  | 0, _ => Except.ok ([], none)
  | k + 1, pos =>
      let tag := uint16At order buf pos
      let typ := uint16At order buf (pos + 2) % 256
      let count := uint32At order buf (pos + 4)
      let size := typeSize typ * count % 4294967296
      let inlinePos := pos + 8
      if size > 4 then
        let dataPos := uint32At order buf (pos + 8)
        let last := (dataPos + size - 1) % 4294967296
        if last < dataPos ∨ last > buf.length then
          Except.error (⟨tag, typ, count, []⟩ :: List.replicate k defaultField, tag)
        else
          let f : Field := ⟨tag, typ, count, sliceBytes buf dataPos size⟩
          match getFieldsLoop buf order k (pos + 12) with
          | Except.error (fs, t) => Except.error (f :: fs, t)
          | Except.ok (fs, mp) =>
              Except.ok (f :: fs,
                match mp with
                | some p => some p
                | none => if tag = makerNote then some dataPos else none)
      else
        let f : Field := ⟨tag, typ, count, sliceBytes buf inlinePos size⟩
        match getFieldsLoop buf order k (pos + 12) with
        | Except.error (fs, t) => Except.error (f :: fs, t)
        | Except.ok (fs, mp) =>
            Except.ok (f :: fs,
              match mp with
              | some p => some p
              | none => if tag = makerNote then some inlinePos else none)

/-- Result of GetIFD: the IFD, the next-IFD position (0 if none), the error
status, and the value left in the makerNotePos closure variable (0 when no
makerNote field was seen; only meaningful on the success path). -/
structure GetIFDResult where
  ifd : IFD_T
  next : Nat
  err : Option GetIFDError
  makerPos : Nat
deriving DecidableEq, Repr

/-- Read an IFD and its image data from a position in buf (GetIFD).  The
outer Option models a Go runtime panic inside the image-data reads.  Checks
mirror the source: position check with uint32 wrap detection, the zero
entry-count early return (no error, next pointer not read), the truncation
check that discards the field array, the per-entry data bounds check, and
finally the image data pass and the next-pointer read. -/
def GetIFD (buf : Bytes) (order : ByteOrder) (pos : Nat) (spec : List ImageDataSpec) :
    Option GetIFDResult :=
  let ifdpos := pos
  let bufsize := buf.length
  if add32 pos 2 < pos ∨ add32 pos 2 > bufsize then
    some ⟨⟨order, [], []⟩, 0, some ⟨ErrIFDPos, ifdpos, 0, 0⟩, 0⟩
  else
    let entries := uint16At order buf pos
    if entries = 0 then
      some ⟨⟨order, [], []⟩, 0, none, 0⟩
    else
      let tablesize := 2 + entries * 12 + 4
      if add32 pos tablesize < pos ∨ add32 pos tablesize > bufsize then
        some ⟨⟨order, [], []⟩, 0, some ⟨ErrIFDTruncated, ifdpos, entries, 0⟩, 0⟩
      else
        match getFieldsLoop buf order entries (pos + 2) with
        | Except.error (fields, badTag) =>
            some ⟨⟨order, fields, []⟩, 0, some ⟨ErrFieldData, ifdpos, entries, badTag⟩, 0⟩
        | Except.ok (fields, mp) =>
            let specF := spec.map
              (fun s => (⟨lastFieldWithTag fields s.offsetTag,
                lastFieldWithTag fields s.sizeTag⟩ : ImageDataFields))
            match getImageData buf order specF with
            | none => none
            | some (Except.error e) =>
                some ⟨⟨order, fields, []⟩, 0,
                  some ⟨e.errType, ifdpos, entries, e.fieldTag⟩, 0⟩
            | some (Except.ok ids) =>
                let next := uint32At order buf (pos + 2 + 12 * entries)
                some ⟨⟨order, fields, ids⟩, next, none,
                  match mp with | some p => p | none => 0⟩

/-- The error text of the SHORT offset overflow in putImageData. -/
def shortOffsetOverflowMsg : String := "putImageData: position is too large for SHORT field"

/-- The error text when ImageData offset fields are missing from the IFD. -/
def offsetFieldsMismatchMsg : String := "putImageData: ImageData offset fields don't match IFD"

/-- The error text when an offset field has a type other than LONG or
SHORT. -/
def offsetFieldTypeMsg : String := "putImageData: OffsetField not LONG or SHORT"

/-- The inner segment loop of putImageData for one ImageData entry.  Each
segment is copied to the running position with copy(buf[pos:], seg): the
slice expression panics when pos exceeds the buffer length (modelled by
none), and the copy itself truncates at the end of the buffer.  For a LONG
offset field the position is stored as a uint32 in the offset data array;
for a SHORT offset field the source guards with the literal 2<<15 (which is
65536, the full uint16 range) and stores the position as a uint16.  Go
copies the segment before the guard, and on failure returns the position
before the segment length is added.  Positions stay far below 2^32 in any
buffer TIFF can address, so plain addition models the uint32 position
arithmetic. -/
def putSegments (order : ByteOrder) (isLong : Bool) :
    (segs : List Bytes) → (j : Nat) → (buf : Bytes) → (pos : Nat) → (od : Bytes) →
    Option (Bytes × Nat × Bytes × Option String)
  | [], _, buf, pos, od => some (buf, pos, od, none)
  | seg :: rest, j, buf, pos, od =>
      if buf.length < pos then none
      else
        let buf2 := copyBytes buf pos seg
        if isLong then
          putSegments order isLong rest (j + 1) buf2 (pos + seg.length)
            (putUint32At order od (4 * j) pos)
        else
          if 65536 ≤ pos then some (buf2, pos, od, some shortOffsetOverflowMsg)
          else
            putSegments order isLong rest (j + 1) buf2 (pos + seg.length)
              (putUint16At order od (2 * j) pos)

/-- Association list lookup with Go map semantics (the last insertion for a
key wins). -/
def lookupLast (m : List (Nat × Bytes)) (key : Nat) : Option Bytes :=
  m.foldl (fun acc e => if e.1 = key then some e.2 else acc) none

/-- The outer loop of putImageData over the pairs of an ImageData entry and
its offset field (none propagates a segment-loop panic). -/
def putImageDataLoop (order : ByteOrder) :
    (items : List (ImageData × Field)) → (buf : Bytes) → (pos : Nat) →
    (idmap : List (Nat × Bytes)) → Option (Bytes × Nat × List (Nat × Bytes) × Option String)
  | [], buf, pos, idmap => some (buf, pos, idmap, none)
  | (id, offF) :: rest, buf, pos, idmap =>
      let od0 : Bytes := List.replicate offF.size 0
      if offF.type ≠ 4 ∧ offF.type ≠ 3 then
        some (buf, pos, idmap ++ [(offF.tag, od0)], some offsetFieldTypeMsg)
      else
        match putSegments order (offF.type = 4) id.segments 0 buf pos od0 with
        | none => none
        | some (buf2, pos2, od2, some e) =>
            some (buf2, pos2, idmap ++ [(offF.tag, od2)], some e)
        | some (buf2, pos2, od2, none) =>
            putImageDataLoop order rest buf2 pos2 (idmap ++ [(offF.tag, od2)])

/-- Put image data into the buffer at pos (putImageData).  Returns the
updated buffer, the next data position, and the mapping from offset-field
tag to the rewritten offset bytes (the Go map holds slices that the loop
patches in place; the list here holds their final contents). -/
def putImageData (buf : Bytes) (ifd : IFD_T) (pos : Nat) (order : ByteOrder) :
    Option (Bytes × Nat × List (Nat × Bytes) × Option String) :=
  let offsetTags := ifd.imageData.map (·.offsetTag)
  let offsetFields := ifd.FindFields offsetTags
  if offsetFields.length ≠ offsetTags.length then
    some (buf, pos, [], some offsetFieldsMismatchMsg)
  else
    putImageDataLoop order (ifd.imageData.zip offsetFields) buf pos []

/-- The successive write positions the segment loop assigns to a list of
segments starting at pos. -/
def segPositions (pos : Nat) : List Bytes → List Nat
  | [] => []
  | seg :: rest => pos :: segPositions (pos + seg.length) rest

/-- Total byte length of a list of segments. -/
def totalLen : List Bytes → Nat
  | [] => 0
  | seg :: rest => seg.length + totalLen rest

/-- The kth write position of the segment loop (0 outside the range). -/
def segPositionAt (pos : Nat) (segs : List Bytes) (k : Nat) : Nat :=
  (segPositions pos segs).getD k 0

/-- IFD tag namespaces (TagSpace). -/
inductive TagSpace where
  | tiff
  | unknown
  | exif
  | gps
  | interop
  | mpfIndex
  | mpfAttribute
  | nikon1
  | nikon2
  | nikon2Preview
  | nikon2Scan
  | panasonic1
deriving DecidableEq, Repr

/-- Space-specific node data: the closed set of SpaceRec implementations of
this revision (TIFFSpaceRec carrying its space, Nikon1SpaceRec,
Nikon2SpaceRec carrying the label bytes, Panasonic1SpaceRec). -/
inductive SpaceRec where
  | tiffRec (space : TagSpace)
  | nikon1Rec
  | nikon2Rec (label : Bytes)
  | panasonic1Rec
deriving DecidableEq, Repr

/-- The namespace of a space record (SpaceRec.GetSpace). -/
def SpaceRec.GetSpace : SpaceRec → TagSpace
  | .tiffRec s => s
  | .nikon1Rec => .nikon1
  | .nikon2Rec _ => .nikon2
  | .panasonic1Rec => .panasonic1

/-- Indicate if this field is a pointer to another IFD (Field.IsIFD);
depends on the IFD namespace. -/
def Field.IsIFD (f : Field) (space : TagSpace) : Bool :=
  if f.type = 13 then true
  else
    match space with
    | .tiff => f.tag == SubIFDs || f.tag == ExifIFD || f.tag == GPSIFD
    | .exif => f.tag == interOpIFD
    | .nikon2 => f.tag == Nikon2PreviewIFD || f.tag == Nikon2NikonScanIFD
    | _ => false

/-- The namespace of the sub-IFD a field refers to (TagSpace.SubSpace). -/
def TagSpace.SubSpace (space : TagSpace) (tag : Nat) : TagSpace :=
  match space with
  | .tiff =>
      if tag = SubIFDs then .tiff
      else if tag = ExifIFD then .exif
      else if tag = GPSIFD then .gps
      else .unknown
  | .exif => if tag = interOpIFD then .interop else .unknown
  | .nikon2 =>
      if tag = Nikon2PreviewIFD then .nikon2Preview
      else if tag = Nikon2NikonScanIFD then .nikon2Scan
      else .unknown
  | _ => .unknown

/-- The namespace assumed for the IFD a next pointer links to, from the
next-link handling of getIFDTreeIter: a TIFF thumbnail after Exif, the MPF
attribute IFD after the MPF index, otherwise the same namespace. -/
def nextSpace : TagSpace → TagSpace
  | .exif => .tiff
  | .mpfIndex => .mpfAttribute
  | s => s

/-- TIFF IFD with links to sub-IFDs and to the next IFD (IFDNode).  Each
sub-IFD link keeps the tag of the field that referred to it. -/
inductive IFDNode where
  | mk (ifd : IFD_T) (spaceRec : SpaceRec) (subIFDs : List (Nat × IFDNode))
      (next : Option IFDNode)

/-- The IFD of a node. -/
def IFDNode.ifd : IFDNode → IFD_T
  | .mk i _ _ _ => i

/-- The space record of a node. -/
def IFDNode.spaceRec : IFDNode → SpaceRec
  | .mk _ r _ _ => r

/-- The sub-IFD links of a node. -/
def IFDNode.subIFDs : IFDNode → List (Nat × IFDNode)
  | .mk _ _ s _ => s

/-- The next link of a node. -/
def IFDNode.next : IFDNode → Option IFDNode
  | .mk _ _ _ n => n

/-- The namespace of a node. -/
def IFDNode.GetSpace (n : IFDNode) : TagSpace := n.spaceRec.GetSpace

/-- Replace the space record of a node, as getMakerNote does after reparsing
a maker note. -/
def IFDNode.setSpaceRec : IFDNode → SpaceRec → IFDNode
  | .mk i _ s n, r => .mk i r s n

/-- The maker-note bookkeeping carried through the tree walk
(makerNoteData).  The exifNode pointer of the Go struct is represented by
locating the last Exif node again at attachment time. -/
structure MakerData where
  make : Bytes
  model : Bytes
  position : Nat
deriving DecidableEq, Repr

/-- Errors of the tree walk: either a GetIFDError or a message error. -/
inductive TreeErr where
  | gifd (e : GetIFDError)
  | msg (s : String)
deriving DecidableEq, Repr

/-- The text of the cycle error of getIFDTreeIter. -/
def loopErrMsg : String := "GetIFDTreeIter: IFD reference loop detected"

/-- The text of the missing-header error of the Nikon2 maker note case. -/
def nikon2HeaderMsg : String := "TIFF header not found in Nikon2 maker note"

/-- Result of the fueled tree-walk recursion: a Go runtime panic, fuel
exhaustion (an artifact of the embedding, proved unreachable), an aborting
error, or a node together with the final visited set and maker data. -/
inductive IterResult where
  | panic
  | fuelOut
  | fail (e : TreeErr)
  | ok (node : IFDNode) (seen : List Nat) (maker : MakerData)

/-- Result of the loops inside getIFDTreeIter that collect sub-IFD links. -/
inductive SubsResult where
  | panic
  | fuelOut
  | fail (e : TreeErr)
  | ok (subs : List (Nat × IFDNode)) (seen : List Nat) (maker : MakerData)

mutual

/-- Helper for GetIFDTree (getIFDTreeIter).  The visited set is the Go map
ifdPositions, threaded as a list; entering with a visited position returns
the loop error before any recursion.  fuel is an embedding artifact: every
nested visit consumes one unit, and a separate theorem shows the tree walk
never exhausts it. -/
def getIFDTreeIter (buf : Bytes) (order : ByteOrder) (fuel : Nat) (pos : Nat)
    (space : TagSpace) (seen : List Nat) (maker : MakerData) : IterResult :=
  if seen.contains pos then .fail (.msg loopErrMsg)
  else
    match fuel with
    | 0 => .fuelOut
    | fuel + 1 =>
        let seen2 := pos :: seen
        let specs := if space = .tiff then TIFFImageData else []
        match GetIFD buf order pos specs with
        | none => .panic
        | some r =>
            match r.err with
            | some e => .fail (.gifd e)
            | none =>
                match getSubIFDsLoop buf order fuel space r.makerPos r.ifd.fields seen2 maker with
                | .panic => .panic
                | .fuelOut => .fuelOut
                | .fail e => .fail e
                | .ok subs seen3 maker3 =>
                    if r.next ≠ 0 then
                      match getIFDTreeIter buf order fuel r.next (nextSpace space) seen3
                          maker3 with
                      | .panic => .panic
                      | .fuelOut => .fuelOut
                      | .fail e => .fail e
                      | .ok nextNode seen4 maker4 =>
                          .ok (.mk r.ifd (.tiffRec space) subs (some nextNode)) seen4 maker4
                    else .ok (.mk r.ifd (.tiffRec space) subs none) seen3 maker3
termination_by (fuel, 0, 0)

/-- The else-branch bookkeeping of the field loop of getIFDTreeIter: in
TIFF space a Make or Model field updates the maker strings (Field.ASCII
panics on empty data, modelled by none), and in Exif space a makerNote
field records the maker note position the fieldProc closure saw. -/
def makerUpdate (space : TagSpace) (f : Field) (makerPos : Nat) (maker : MakerData) :
    Option MakerData :=
  match space with
  | .tiff =>
      if f.tag = Make then
        match f.ASCII with
        | none => none
        | some s => some { maker with make := s }
      else if f.tag = Model then
        match f.ASCII with
        | none => none
        | some s => some { maker with model := s }
      else some maker
  | .exif =>
      if f.tag = makerNote then some { maker with position := makerPos }
      else some maker
  | _ => some maker

/-- The field loop of getIFDTreeIter: a field that points to sub-IFDs opens
the index loop; any other field goes through the maker bookkeeping of
makerUpdate. -/
def getSubIFDsLoop (buf : Bytes) (order : ByteOrder) (fuel : Nat) (space : TagSpace)
    (makerPos : Nat) (fields : List Field) (seen : List Nat) (maker : MakerData) :
    SubsResult :=
  match fields with
  | [] => .ok [] seen maker
  | f :: rest =>
      if f.IsIFD space then
        match getSubIFDJLoop buf order fuel space f 0 f.count seen maker with
        | .panic => .panic
        | .fuelOut => .fuelOut
        | .fail e => .fail e
        | .ok subs seen2 maker2 =>
            match getSubIFDsLoop buf order fuel space makerPos rest seen2 maker2 with
            | .panic => .panic
            | .fuelOut => .fuelOut
            | .fail e => .fail e
            | .ok subs2 seen3 maker3 => .ok (subs ++ subs2) seen3 maker3
      else
        match makerUpdate space f makerPos maker with
        | none => .panic
        | some maker2 => getSubIFDsLoop buf order fuel space makerPos rest seen maker2
termination_by (fuel, 2, fields.length)

/-- The index loop of getIFDTreeIter over the count of a sub-IFD pointer
field: read the jth offset (Field.Long panics when the data is too short)
and recurse into the sub-IFD namespace. -/
def getSubIFDJLoop (buf : Bytes) (order : ByteOrder) (fuel : Nat) (space : TagSpace)
    (f : Field) (j : Nat) (remaining : Nat) (seen : List Nat) (maker : MakerData) :
    SubsResult :=
  match remaining with
  | 0 => .ok [] seen maker
  | k + 1 =>
      match f.LongP j order with
      | none => .panic
      | some subpos =>
          let subspace := space.SubSpace f.tag
          match getIFDTreeIter buf order fuel subpos subspace seen maker with
          | .panic => .panic
          | .fuelOut => .fuelOut
          | .fail e => .fail e
          | .ok subnode seen2 maker2 =>
              match getSubIFDJLoop buf order fuel space f (j + 1) k seen2 maker2 with
              | .panic => .panic
              | .fuelOut => .fuelOut
              | .fail e => .fail e
              | .ok subs seen3 maker3 => .ok ((f.tag, subnode) :: subs) seen3 maker3
termination_by (fuel, 1, remaining)

end

/-- The Nikon1 maker note label ("Nikon" NUL 1 NUL). -/
def nikon1Label : Bytes := [78, 105, 107, 111, 110, 0, 1, 0]

/-- The Nikon2 maker note label start ("Nikon" NUL). -/
def nikon2Pfx : Bytes := [78, 105, 107, 111, 110, 0]

/-- The Panasonic maker note label ("Panasonic" and three NULs). -/
def panasonicLabel : Bytes := [80, 97, 110, 97, 115, 111, 110, 105, 99, 0, 0, 0]

/-- The lowercase bytes of "nikon". -/
def nikonLower : Bytes := [110, 105, 107, 111, 110]

/-- bytes.HasPrefix(buf[pos:], label): enough bytes remain and they match
the label. -/
def hasLabelAt (buf : Bytes) (pos : Nat) (label : Bytes) : Bool :=
  decide (pos + label.length ≤ buf.length) &&
    (List.range label.length).all (fun k => byteAt buf (pos + k) == label.getD k 0)

/-- ASCII lowering of one byte; enough of strings.ToLower for the "nikon"
prefix test. -/
def lowerByte (b : Nat) : Nat := if 65 ≤ b ∧ b ≤ 90 then b + 32 else b

/-- strings.HasPrefix(strings.ToLower(make), "nikon"). -/
def makeIsNikon (mk : Bytes) : Bool := nikonLower.isPrefixOf (mk.map lowerByte)

mutual

/-- Append the maker sub-IFD to the last Exif node of the tree, in the order
the tree walk visits nodes (getMakerNote appends through the exifNode
pointer the walk retained; the pointer names the last Exif node whose field
scan saw a makerNote field, and sub-IFDs of an Exif node are never Exif, so
the last such node in self-subs-next order is the same node).  Returns the
updated tree and whether a target was found. -/
def attachMakerNode (sub : Nat × IFDNode) : IFDNode → IFDNode × Bool
  | .mk ifd sr subs next =>
      match next with
      | some nx =>
          match attachMakerNode sub nx with
          | (nx2, true) => (.mk ifd sr subs (some nx2), true)
          | _ =>
              match attachMakerSubs sub subs with
              | (subs2, true) => (.mk ifd sr subs2 next, true)
              | _ =>
                  if sr.GetSpace = .exif ∧
                      ifd.fields.any (fun f => !(f.IsIFD .exif) && f.tag == makerNote) then
                    (.mk ifd sr (subs ++ [sub]) next, true)
                  else (.mk ifd sr subs next, false)
      | none =>
          match attachMakerSubs sub subs with
          | (subs2, true) => (.mk ifd sr subs2 none, true)
          | _ =>
              if sr.GetSpace = .exif ∧
                  ifd.fields.any (fun f => !(f.IsIFD .exif) && f.tag == makerNote) then
                (.mk ifd sr (subs ++ [sub]) none, true)
              else (.mk ifd sr subs none, false)

/-- Helper of attachMakerNode over the sub-IFD list, trying the last link
first. -/
def attachMakerSubs (sub : Nat × IFDNode) : List (Nat × IFDNode) → List (Nat × IFDNode) × Bool
  | [] => ([], false)
  | s :: rest =>
      match attachMakerSubs sub rest with
      | (rest2, true) => (s :: rest2, true)
      | _ =>
          match attachMakerNode sub s.2 with
          | (n2, true) => ((s.1, n2) :: rest, true)
          | _ => (s :: rest, false)

end

/-- Result of getMakerNote: the possibly-extended tree, or the error the Go
version returns (the tree itself is then left alone). -/
inductive MakerResult where
  | panic
  | fuelOut
  | fail (e : TreeErr)
  | ok (tree : IFDNode)

/-- Result of GetIFDTree: the pair of the (possibly nil) tree and the
(possibly nil) error, or an embedding artifact (panic, fuel). -/
inductive TreeResult where
  | panic
  | fuelOut
  | res (tree : Option IFDNode) (err : Option TreeErr)

/-- The iteration fuel handed to getIFDTreeIter: one unit per distinct
32-bit position, which a theorem shows is never exhausted. -/
def ifdTreeIterFuel : Nat := 4294967296

mutual

/-- GetIFDTree with explicit nesting fuel for the maker-note phase, which
reenters GetIFDTree for Nikon2 maker notes.  A theorem shows two units of
nesting fuel always suffice. -/
def getIFDTreeFueled (mfuel : Nat) (buf : Bytes) (order : ByteOrder) (pos : Nat)
    (space : TagSpace) : TreeResult :=
  match mfuel with
  | 0 => .fuelOut
  | m + 1 =>
      match getIFDTreeIter buf order ifdTreeIterFuel pos space [] ⟨[], [], 0⟩ with
      | .panic => .panic
      | .fuelOut => .fuelOut
      | .fail e => .res none (some e)
      | .ok tree _ maker =>
          if maker.position ≠ 0 then
            match getMakerNote m buf order maker tree with
            | .panic => .panic
            | .fuelOut => .fuelOut
            | .fail e => .res (some tree) (some e)
            | .ok tree2 => .res (some tree2) none
          else .res (some tree) none
termination_by (mfuel, 0)

/-- Unpack maker note data and append its IFD to the sub-IFDs of the Exif
node (getMakerNote).  The cases follow the source switch: Nikon1, labeled
Nikon2 (a nested TIFF block read from a sub-slice), Panasonic, and unlabeled
Nikon2 chosen by camera make; an unrecognized payload leaves the tree
unchanged with no error. -/
def getMakerNote (m : Nat) (buf : Bytes) (order : ByteOrder) (maker : MakerData)
    (tree : IFDNode) : MakerResult :=
  let pos := maker.position
  if pos > buf.length then .panic
  else if hasLabelAt buf pos nikon1Label then
    match GetIFD buf order (pos + nikon1Label.length) [] with
    | none => .panic
    | some r =>
        match r.err with
        | some e => .fail (.gifd e)
        | none => .ok (attachMakerNode (makerNote, .mk r.ifd .nikon1Rec [] none) tree).1
  else if hasLabelAt buf pos nikon2Pfx then
    if pos + 10 > buf.length then .panic
    else
      match GetHeader (buf.drop (pos + 10)) with
      | none => .panic
      | some hd =>
          if hd.valid = false then .fail (.msg nikon2HeaderMsg)
          else
            match hd.order with
            | none => .panic
            | some ord2 =>
                match getIFDTreeFueled m (buf.drop (pos + 10)) ord2 hd.ifdPos .nikon2 with
                | .panic => .panic
                | .fuelOut => .fuelOut
                | .res _ (some e) => .fail e
                | .res none none => .panic
                | .res (some node) none =>
                    .ok (attachMakerNode
                      (makerNote, node.setSpaceRec (.nikon2Rec (sliceBytes buf pos 10)))
                      tree).1
  else if hasLabelAt buf pos panasonicLabel then
    match GetIFD buf order (pos + panasonicLabel.length) [] with
    | none => .panic
    | some r =>
        match r.err with
        | some e => .fail (.gifd e)
        | none => .ok (attachMakerNode (makerNote, .mk r.ifd .panasonic1Rec [] none) tree).1
  else if makeIsNikon maker.make then
    match byteAtP buf pos with
    | none => .panic
    | some b0 =>
        match getIFDTreeFueled m buf (if b0 = 0 then ByteOrder.big else ByteOrder.little) pos
            .nikon2 with
        | .panic => .panic
        | .fuelOut => .fuelOut
        | .res _ (some e) => .fail e
        | .res none none => .panic
        | .res (some node) none =>
            match (node.setSpaceRec (.nikon2Rec [])).ifd.FindFields [Nikon2MakerNoteVersion] with
            | [f] =>
                if f.type = 7 ∧ f.count = 4 then
                  .ok (attachMakerNode (makerNote, node.setSpaceRec (.nikon2Rec [])) tree).1
                else .ok tree
            | _ => .ok tree
  else .ok tree
termination_by (m, 1)

end

/-- Read an IFD and all the IFDs it refers to (GetIFDTree): the cycle map
starts empty, and the maker-note phase runs afterwards when an Exif IFD
recorded a maker note position. -/
def GetIFDTree (buf : Bytes) (order : ByteOrder) (pos : Nat) (space : TagSpace) : TreeResult :=
  getIFDTreeFueled (buf.length + 2) buf order pos space

/-- Align a position to the next word boundary (Align). -/
def Align (pos : Nat) : Nat := if pos / 2 * 2 ≠ pos then pos + 1 else pos

/-- The serialized position of a sub-IFD (IFDpos). -/
structure IFDpos where
  tag : Nat
  pos : Nat
  size : Nat
deriving DecidableEq, Repr

/-- Write the positions of the sub-IFD pointers into a fresh data array, as
the sub-IFD branch of IFD_T.Put does (order.PutUint32 panics when fewer than
four bytes remain, modelled by none). -/
def writePtrs (order : ByteOrder) : Bytes → List IFDpos → Nat → Option Bytes
  | od, [], _ => some od
  | od, p :: rest, i =>
      if od.length < 4 * i + 4 then none
      else writePtrs order (putUint32At order od (4 * i) p.pos) rest (i + 1)

/-- Write one field data block: at most four bytes go inline after four
zero bytes, larger data goes to the external data position with the
position stored inline.  Go slices data[0:size] (panic when the data is
shorter, modelled by none) and buf[datapos:datapos+size] (panic when the
buffer is too short). -/
def putFieldData (order : ByteOrder) (buf : Bytes) (pos datapos : Nat) (data : Bytes)
    (size : Nat) : Option (Bytes × Nat) :=
  if size ≤ 4 then
    if data.length < size then none
    else
      let buf2 := copyBytes buf pos [0, 0, 0, 0]
      some (copyBytes buf2 pos (data.take size), datapos)
  else
    if buf.length < datapos + size then none
    else
      let buf2 := putUint32At order buf pos datapos
      some (copyBytes buf2 datapos (data.take size), datapos + size)

/-- The entry loop of IFD_T.Put: each field writes its tag, type, count and
data words, sub-IFD pointer fields get their data replaced by the serialized
positions (or, for UNDEFINED fields, the maker-note size and position pair),
image-data offset fields get the rewritten offset bytes, and a tag below its
predecessor aborts with the out-of-order error (none also covers the Go
panics inside the loop). -/
def putFieldsLoop (order : ByteOrder) (subifds : List IFDpos) (offsets : List (Nat × Bytes)) :
    List Field → Bytes → Nat → Nat → Nat → Option (Bytes × Nat × Nat)
  | [], buf, pos, datapos, _ => some (buf, pos, datapos)
  | f :: rest, buf, pos, datapos, lastTag =>
      if f.tag < lastTag then none
      else
        let buf2 := putUint16At order buf pos f.tag
        let buf3 := putUint16At order buf2 (pos + 2) f.type
        let ptrs := subifds.filter (fun s => s.tag = f.tag)
        if ptrs ≠ [] ∧ f.type = 7 then
          match ptrs with
          | [] => none
          | p0 :: _ =>
              let buf4 := putUint32At order buf3 (pos + 4) p0.size
              let buf5 := putUint32At order buf4 (pos + 8) p0.pos
              putFieldsLoop order subifds offsets rest buf5 (pos + 12) datapos f.tag
        else
          let buf4 := putUint32At order buf3 (pos + 4) f.count
          let size := f.size
          if ptrs ≠ [] then
            if typeSize f.type ≠ 4 then none
            else
              match writePtrs order (List.replicate size 0) ptrs 0 with
              | none => none
              | some data =>
                  match putFieldData order buf4 (pos + 8) datapos data size with
                  | none => none
                  | some (buf5, datapos2) =>
                      putFieldsLoop order subifds offsets rest buf5 (pos + 12) datapos2 f.tag
          else
            let data := match lookupLast offsets f.tag with
              | some d => d
              | none => f.data
            match putFieldData order buf4 (pos + 8) datapos data size with
            | none => none
            | some (buf5, datapos2) =>
                putFieldsLoop order subifds offsets rest buf5 (pos + 12) datapos2 f.tag

/-- Serialize an IFD and its external data at pos (IFD_T.Put): image data
first (laid out after the table), then the entry table and the next
pointer.  Returns the buffer and the position after the last external data
byte; none covers the alignment error, the putImageData errors, and the
entry-loop failures. -/
def IFD_T.Put (ifd : IFD_T) (buf : Bytes) (pos : Nat) (subifds : List IFDpos)
    (nextptr : Nat) : Option (Bytes × Nat) :=
  let order := ifd.order
  if pos / 2 * 2 ≠ pos then none
  else
    match putImageData buf ifd (pos + ifd.size) order with
    | none => none
    | some (_, _, _, some _) => none
    | some (buf2, datapos, offsets, none) =>
        let buf3 := putUint16At order buf2 pos ifd.fields.length
        match putFieldsLoop order subifds offsets ifd.fields buf3 (pos + 2) datapos 0 with
        | none => none
        | some (buf4, pos4, datapos4) =>
            some (putUint32At order buf4 pos4 nextptr, datapos4)

/-- Serialized size of a node under the TIFF layout (IFDNode.sizeTIFF): the
table, the out-of-line field data (skipping single-byte-type arrays that
were unpacked into sub-IFDs), and the image data segments. -/
def IFDNode.sizeTIFF (node : IFDNode) : Nat :=
  node.ifd.size +
    node.ifd.fields.foldl
      (fun acc f =>
        if node.subIFDs.any (fun s => s.1 = f.tag) ∧ typeSize f.type = 1 then acc
        else if 4 < f.size then acc + f.size else acc)
      0 +
    node.ifd.imageData.foldl (fun acc id => acc + totalLen id.segments) 0

/-- Serialized size of a node including maker note labels and headers
(IFDNode.Size, dispatching on the space record). -/
def IFDNode.size (node : IFDNode) : Nat :=
  match node.spaceRec with
  | .tiffRec _ => node.sizeTIFF
  | .nikon1Rec => nikon1Label.length + node.sizeTIFF
  | .nikon2Rec label =>
      if label.length = 0 then node.sizeTIFF
      else label.length + HeaderSize + node.sizeTIFF
  | .panasonic1Rec => panasonicLabel.length + node.sizeTIFF

mutual

/-- Serialized size of a node and every node it refers to
(IFDNode.TreeSize). -/
def IFDNode.TreeSize : IFDNode → Nat
  | .mk ifd sr subs next =>
      let size := Align (treeSizeSubs subs (IFDNode.size (.mk ifd sr subs next)))
      match next with
      | some nx => size + nx.TreeSize
      | none => size

/-- The sub-IFD loop of TreeSize: align, then add each subtree. -/
def treeSizeSubs : List (Nat × IFDNode) → Nat → Nat
  | [], size => size
  | s :: rest, size => treeSizeSubs rest (Align size + s.2.TreeSize)

end

mutual

/-- Serialize a node and the nodes it refers to (IFDNode.PutIFDTree),
dispatching on the space record: plain TIFF layout, a Nikon1 or Panasonic
label before the TIFF layout, or a Nikon2 label followed by a nested TIFF
block written into the tail of the buffer. -/
def IFDNode.PutIFDTree (node : IFDNode) (buf : Bytes) (pos : Nat) : Option (Bytes × Nat) :=
  match node.spaceRec with
  | .tiffRec _ => node.putIFDTreeTIFF buf pos
  | .nikon1Rec =>
      node.putIFDTreeTIFF (copyBytes buf pos nikon1Label) (pos + nikon1Label.length)
  | .nikon2Rec label =>
      if label.length = 0 then node.putIFDTreeTIFF buf pos
      else
        let buf2 := copyBytes buf pos label
        let pos2 := pos + label.length
        let makerBuf := PutHeader (buf2.drop pos2) node.ifd.order HeaderSize
        match node.putIFDTreeTIFF makerBuf HeaderSize with
        | none => none
        | some (makerBuf2, last) => some (buf2.take pos2 ++ makerBuf2, pos2 + last)
  | .panasonic1Rec =>
      node.putIFDTreeTIFF (copyBytes buf pos panasonicLabel) (pos + panasonicLabel.length)
termination_by (sizeOf node, 1)

/-- The TIFF layout of PutIFDTree (IFDNode.putIFDTreeTIFF): write the
sub-trees after this node recording their positions, then the next chain,
then the table itself through IFD_T.Put. -/
def IFDNode.putIFDTreeTIFF : IFDNode → Bytes → Nat → Option (Bytes × Nat)
  | .mk ifd sr subs nextN, buf, pos =>
      match putTreeSubs subs buf (pos + IFDNode.sizeTIFF (.mk ifd sr subs nextN)) with
      | none => none
      | some (subpos, buf2, next2) => putTreeNext ifd nextN subpos buf2 pos next2
termination_by n _ _ => (sizeOf n, 0)

/-- The next-chain phase of putIFDTreeTIFF: write the next tree (if any)
after the sub-trees, then the table itself through IFD_T.Put. -/
def putTreeNext (ifd : IFD_T) :
    Option IFDNode → List IFDpos → Bytes → Nat → Nat → Option (Bytes × Nat)
  | some nx, subpos, buf, pos, next2 =>
      let next3 := Align next2
      match nx.PutIFDTree buf next3 with
      | none => none
      | some (buf3, next4) =>
          match ifd.Put buf3 pos subpos next3 with
          | none => none
          | some (buf4, _) => some (buf4, next4)
  | none, subpos, buf, pos, next2 =>
      match ifd.Put buf pos subpos 0 with
      | none => none
      | some (buf4, _) => some (buf4, next2)
termination_by nextN _ _ _ _ => (sizeOf nextN, 1)

/-- The sub-IFD loop of putIFDTreeTIFF: align, write the subtree, record
its tag, aligned position and serialized length. -/
def putTreeSubs : List (Nat × IFDNode) → Bytes → Nat → Option (List IFDpos × Bytes × Nat)
  | [], buf, next => some ([], buf, next)
  | (tag, sn) :: rest, buf, next =>
      let next2 := Align next
      match sn.PutIFDTree buf next2 with
      | none => none
      | some (buf2, nextTmp) =>
          match putTreeSubs rest buf2 nextTmp with
          | none => none
          | some (ps, buf3, nf) => some (⟨tag, next2, nextTmp - next2⟩ :: ps, buf3, nf)
termination_by subs _ _ => (sizeOf subs, 2)

end

/-- Write a list of LONG values into consecutive elements of a field, as
the widening loop of IFD_T.Fix does. -/
def putLongs (order : ByteOrder) (f : Field) : List Nat → Nat → Field
  | [], _ => f
  | v :: rest, k => putLongs order (f.PutLong v k order) rest (k + 1)

/-- One step of the fix loop of IFD_T.Fix: a SHORT field named by an
image-data spec is widened to LONG with its values rewritten (Field.Short
reads beyond the data panic in Go, modelled by the length guard), and an
ASCII field without a trailing NUL gets one appended (indexing data at
count minus one, which panics on an empty data slice and wraps at zero
count, modelled by none). -/
def fixField (order : ByteOrder) (specs : List ImageDataSpec) (f : Field) : Option Field :=
  if f.type = 3 then
    if specs.any (fun s => s.offsetTag = f.tag) then
      if f.data.length < 2 * f.count then none
      else
        let offsets := (List.range f.count).map (fun k => f.Short k order)
        some (putLongs order { f with type := 4, data := List.replicate (4 * f.count) 0 }
          offsets 0)
    else some f
  else if f.type = 2 then
    let idx := (f.count + 4294967295) % 4294967296
    if f.data.length ≤ idx then none
    else if byteAt f.data idx ≠ 0 then
      let newCount := (f.count + 1) % 4294967296
      let newData := f.data.take newCount ++ List.replicate (newCount - f.data.length) 0
      some { f with count := newCount, data := newData }
    else some f
  else some f

/-- The field loop of IFD_T.Fix over the sorted fields. -/
def fixFieldsLoop (order : ByteOrder) (specs : List ImageDataSpec) :
    List Field → Option (List Field)
  | [] => some []
  | f :: rest =>
      match fixField order specs f with
      | none => none
      | some f2 =>
          match fixFieldsLoop order specs rest with
          | none => none
          | some fs => some (f2 :: fs)

/-- TIFF fixes for one IFD (IFD_T.Fix): sort the fields into ascending tag
order, widen SHORT offset fields to LONG, and append missing NUL
terminators to ASCII data. -/
def IFD_T.Fix (ifd : IFD_T) (specs : List ImageDataSpec) : Option IFD_T :=
  match fixFieldsLoop ifd.order specs (sortFields ifd.fields) with
  | none => none
  | some fs => some { ifd with fields := fs }

mutual

/-- Apply the IFD fixes to every node of a tree (IFDNode.Fix): TIFF-space
nodes use the TIFF image data specs, every other node none. -/
def IFDNode.Fix : IFDNode → Option IFDNode
  | .mk ifd sr subs next =>
      match ifd.Fix (if sr.GetSpace = .tiff then TIFFImageData else []) with
      | none => none
      | some ifd2 =>
          match fixSubs subs with
          | none => none
          | some subs2 => fixNext ifd2 sr subs2 next

/-- The next-chain phase of IFDNode.Fix. -/
def fixNext (ifd2 : IFD_T) (sr : SpaceRec) (subs2 : List (Nat × IFDNode)) :
    Option IFDNode → Option IFDNode
  | some nx =>
      match nx.Fix with
      | none => none
      | some nx2 => some (.mk ifd2 sr subs2 (some nx2))
  | none => some (.mk ifd2 sr subs2 none)

/-- The sub-IFD loop of IFDNode.Fix. -/
def fixSubs : List (Nat × IFDNode) → Option (List (Nat × IFDNode))
  | [] => some []
  | s :: rest =>
      match s.2.Fix with
      | none => none
      | some n2 =>
          match fixSubs rest with
          | none => none
          | some rest2 => some ((s.1, n2) :: rest2)

end

/-- Raw list element at an index (buffer contents without the mod-256 view
of byteAt). -/
def rawAt (buf : Bytes) (i : Nat) : Nat := buf.getD i 0

/-- Buffers whose raw elements are genuine bytes. -/
def bytesWF (buf : Bytes) : Prop := ∀ b ∈ buf, b < 256

/-- TIFF-space tags with structural meaning: sub-IFD pointer tags and the
image data offset tags of TIFFImageData. -/
def tiffLinkTags : List Nat :=
  [SubIFDs, ExifIFD, GPSIFD, StripOffsets, TileOffsets, FreeOffsets,
    JPEGInterchangeFormat, JPEGQTables, JPEGDCTables, JPEGACTables]

/-- A plain data field of the round-trip fragment: representable tag, type
and count words, one to four data bytes stored inline and matching the
declared size, not an ASCII or IFD typed field, and a tag without
structural meaning in TIFF space. -/
def simpleField (f : Field) : Prop :=
  f.tag < 65536 ∧ f.type < 256 ∧ f.type ≠ 2 ∧ f.type ≠ 13 ∧ f.count < 4294967296 ∧
  1 ≤ f.size ∧ f.size ≤ 4 ∧ f.data.length = f.size ∧ (∀ b ∈ f.data, b < 256) ∧
  f.tag ∉ tiffLinkTags

/-- The buffer holds the given fields as serialized 12-byte entries starting
at pos, with each data block inline. -/
def entriesAt (o : ByteOrder) (B : Bytes) : Nat → List Field → Prop
  | _, [] => True
  | pos, f :: rest =>
      uint16At o B pos = f.tag ∧ uint16At o B (pos + 2) = f.type ∧
      uint32At o B (pos + 4) = f.count ∧
      (∀ j < f.size, byteAt B (pos + 8 + j) = byteAt f.data j) ∧
      entriesAt o B (pos + 12) rest

/-- A little-endian TIFF buffer whose root IFD at 8 has a single SubIFDs
pointer field referring to a one-field Compression IFD at offset 40, with a
14-byte gap between parent and child. -/
def demoC1Buf : Bytes :=
  [73, 73, 42, 0, 8, 0, 0, 0,
   1, 0, 74, 1, 4, 0, 1, 0, 0, 0, 40, 0, 0, 0, 0, 0, 0, 0,
   0, 0, 0, 0, 0, 0, 0, 0, 0, 0, 0, 0, 0, 0,
   1, 0, 3, 1, 3, 0, 1, 0, 0, 0, 1, 0, 0, 0, 0, 0, 0, 0]

/-- The child node demoC1Buf parses to. -/
def demoChild : IFDNode :=
  .mk ⟨ByteOrder.little, [⟨259, 3, 1, [1, 0]⟩], []⟩ (.tiffRec .tiff) [] none

/-- The tree demoC1Buf parses to: the pointer field data holds offset 40. -/
def demoRoot : IFDNode :=
  .mk ⟨ByteOrder.little, [⟨330, 4, 1, [40, 0, 0, 0]⟩], []⟩ (.tiffRec .tiff)
    [(330, demoChild)] none

/-- The tree the reserialized buffer parses to: the pointer field data now
holds offset 26, where the serializer placed the child. -/
def demoRoot2 : IFDNode :=
  .mk ⟨ByteOrder.little, [⟨330, 4, 1, [26, 0, 0, 0]⟩], []⟩ (.tiffRec .tiff)
    [(330, demoChild)] none

/-- The buffer PutIFDTree produces for demoRoot: the child lands at 26,
directly after the root table. -/
def demoOutBuf : Bytes :=
  [0, 0, 0, 0, 0, 0, 0, 0,
   1, 0, 74, 1, 4, 0, 1, 0, 0, 0, 26, 0, 0, 0, 0, 0, 0, 0,
   1, 0, 3, 1, 3, 0, 1, 0, 0, 0, 1, 0, 0, 0, 0, 0, 0, 0]

/-- Wellformedness of the visited set: distinct 32-bit positions. -/
def seenOK (seen : List Nat) : Prop := seen.Nodup ∧ ∀ p ∈ seen, p < 4294967296

/-- Namespaces from which the walk can never reach a TIFF or Exif IFD and
hence never touches the maker bookkeeping. -/
def makerSafeSpace (s : TagSpace) : Prop := s ≠ .tiff ∧ s ≠ .exif

/-- Wellformedness of the maker data: the recorded position is 32-bit. -/
def makerOK (maker : MakerData) : Prop := maker.position < 4294967296

/-- Postcondition bundle of getIFDTreeIter for the termination proof: fuel
is never exhausted, and on success the visited set stays wellformed and only
grows, the maker position stays 32-bit, and walks rooted in a maker-safe
namespace leave the maker data untouched. -/
def iterPost (space : TagSpace) (seen : List Nat) (maker : MakerData) : IterResult → Prop
  | .fuelOut => False
  | .ok _ seen2 maker2 =>
      seenOK seen2 ∧ seen.length ≤ seen2.length ∧ makerOK maker2 ∧
        (makerSafeSpace space → maker2 = maker)
  | _ => True

/-- Postcondition bundle of the sub-IFD loops, mirroring iterPost. -/
def subsPost (space : TagSpace) (seen : List Nat) (maker : MakerData) : SubsResult → Prop
  | .fuelOut => False
  | .ok _ seen2 maker2 =>
      seenOK seen2 ∧ seen.length ≤ seen2.length ∧ makerOK maker2 ∧
        (makerSafeSpace space → maker2 = maker)
  | _ => True

end Tiff66

namespace Tiff66

/-- Helper: setByte preserves length. -/
theorem length_setByte (buf : Bytes) (i v : Nat) : (setByte buf i v).length = buf.length := by
  simp [setByte]

/-- Helper: reading the byte just stored. -/
theorem byteAt_setByte_self (buf : Bytes) (i v : Nat) (h : i < buf.length) :
    byteAt (setByte buf i v) i = v % 256 := by
  unfold byteAt setByte
  rw [List.getD_eq_getElem?_getD, List.getElem?_set_self h]
  simp [Nat.mod_mod_of_dvd]

/-- Helper: reading a byte other than the one stored. -/
theorem byteAt_setByte_ne (buf : Bytes) (i v j : Nat) (h : i ≠ j) :
    byteAt (setByte buf i v) j = byteAt buf j := by
  unfold byteAt setByte
  rw [List.getD_eq_getElem?_getD, List.getD_eq_getElem?_getD, List.getElem?_set_ne h]

/-- Helper: putUint16At preserves length. -/
theorem length_putUint16At (order : ByteOrder) (buf : Bytes) (pos v : Nat) :
    (putUint16At order buf pos v).length = buf.length := by
  cases order <;> simp [putUint16At, setByte]

/-- Helper: putUint32At preserves length. -/
theorem length_putUint32At (order : ByteOrder) (buf : Bytes) (pos v : Nat) :
    (putUint32At order buf pos v).length = buf.length := by
  cases order <;> simp [putUint32At, setByte]

/-- Helper: bytes outside the two-byte window of putUint16At are unchanged. -/
theorem byteAt_putUint16At_ne (order : ByteOrder) (buf : Bytes) (pos v j : Nat)
    (h : j ≠ pos ∧ j ≠ pos + 1) :
    byteAt (putUint16At order buf pos v) j = byteAt buf j := by
  cases order <;> unfold putUint16At <;>
    rw [byteAt_setByte_ne _ _ _ _ (by omega), byteAt_setByte_ne _ _ _ _ (by omega)]

/-- Helper: bytes outside the four-byte window of putUint32At are
unchanged. -/
theorem byteAt_putUint32At_ne (order : ByteOrder) (buf : Bytes) (pos v j : Nat)
    (h : j < pos ∨ pos + 4 ≤ j) :
    byteAt (putUint32At order buf pos v) j = byteAt buf j := by
  cases order <;> unfold putUint32At <;>
    rw [byteAt_setByte_ne _ _ _ _ (by omega), byteAt_setByte_ne _ _ _ _ (by omega),
      byteAt_setByte_ne _ _ _ _ (by omega), byteAt_setByte_ne _ _ _ _ (by omega)]

/-- Helper: reading back a 16-bit word just written. -/
theorem uint16At_putUint16At (order : ByteOrder) (buf : Bytes) (pos v : Nat)
    (h : pos + 2 ≤ buf.length) :
    uint16At order (putUint16At order buf pos v) pos = v % 65536 := by
  cases order <;>
    · simp only [uint16At, putUint16At]
      rw [byteAt_setByte_ne _ _ _ _ (by omega), byteAt_setByte_self _ _ _ (by omega),
        byteAt_setByte_self _ _ _ (by rw [length_setByte]; omega)]
      omega

/-- Helper: reading back a 32-bit word just written. -/
theorem uint32At_putUint32At (order : ByteOrder) (buf : Bytes) (pos v : Nat)
    (h : pos + 4 ≤ buf.length) :
    uint32At order (putUint32At order buf pos v) pos = v % 4294967296 := by
  cases order <;>
    · simp only [uint32At, putUint32At]
      rw [byteAt_setByte_ne _ _ _ _ (by omega), byteAt_setByte_ne _ _ _ _ (by omega),
        byteAt_setByte_ne _ _ _ _ (by omega), byteAt_setByte_self _ _ _ (by omega),
        byteAt_setByte_ne _ _ _ _ (by omega), byteAt_setByte_ne _ _ _ _ (by omega),
        byteAt_setByte_self _ _ _ (by simp only [length_setByte]; omega),
        byteAt_setByte_ne _ _ _ _ (by omega),
        byteAt_setByte_self _ _ _ (by simp only [length_setByte]; omega),
        byteAt_setByte_self _ _ _ (by simp only [length_setByte]; omega)]
      omega

/-- Helper: two buffers agreeing on a two-byte window give the same 16-bit
read. -/
theorem uint16At_congr (order : ByteOrder) (a b : Bytes) (pos : Nat)
    (h0 : byteAt a pos = byteAt b pos) (h1 : byteAt a (pos + 1) = byteAt b (pos + 1)) :
    uint16At order a pos = uint16At order b pos := by
  cases order <;> unfold uint16At <;> rw [h0, h1]

/-- Helper: copyBytes preserves length. -/
theorem length_copyBytes (src : Bytes) : ∀ (buf : Bytes) (pos : Nat),
    (copyBytes buf pos src).length = buf.length := by
  induction src with
  | nil => intro buf pos; rfl
  | cons b rest ih =>
      intro buf pos
      unfold copyBytes
      rw [ih, length_setByte]

/-- Helper: copyBytes leaves bytes below the window unchanged. -/
theorem byteAt_copyBytes_lo (src : Bytes) : ∀ (buf : Bytes) (pos j : Nat), j < pos →
    byteAt (copyBytes buf pos src) j = byteAt buf j := by
  induction src with
  | nil => intro buf pos j _; rfl
  | cons b rest ih =>
      intro buf pos j h
      unfold copyBytes
      rw [ih _ _ _ (by omega), byteAt_setByte_ne _ _ _ _ (by omega)]

/-- Helper: copyBytes leaves bytes above the window unchanged. -/
theorem byteAt_copyBytes_hi (src : Bytes) : ∀ (buf : Bytes) (pos j : Nat),
    pos + src.length ≤ j →
    byteAt (copyBytes buf pos src) j = byteAt buf j := by
  induction src with
  | nil => intro buf pos j _; rfl
  | cons b rest ih =>
      intro buf pos j h
      simp only [List.length_cons] at h
      unfold copyBytes
      rw [ih _ _ _ (by omega), byteAt_setByte_ne _ _ _ _ (by omega)]

/-- Helper: byteAt on a cons cell. -/
theorem byteAt_cons_zero (b : Nat) (rest : Bytes) : byteAt (b :: rest) 0 = b % 256 := rfl

/-- Helper: byteAt on a cons cell at a successor index. -/
theorem byteAt_cons_succ (b : Nat) (rest : Bytes) (k : Nat) :
    byteAt (b :: rest) (k + 1) = byteAt rest k := rfl

/-- Helper: reading inside the copied window returns the source byte. -/
theorem byteAt_copyBytes_in (src : Bytes) : ∀ (buf : Bytes) (pos j : Nat),
    pos ≤ j → j < pos + src.length → j < buf.length →
    byteAt (copyBytes buf pos src) j = byteAt src (j - pos) := by
  induction src with
  | nil => intro buf pos j h1 h2 _; simp at h2; omega
  | cons b rest ih =>
      intro buf pos j h1 h2 h3
      unfold copyBytes
      by_cases hj : j = pos
      · subst hj
        rw [byteAt_copyBytes_lo _ _ _ _ (by omega),
          byteAt_setByte_self _ _ _ (by omega)]
        simp [byteAt_cons_zero]
      · have : pos + 1 ≤ j := by omega
        rw [ih _ _ _ (by omega) (by simp at h2 ⊢; omega) (by rw [length_setByte]; omega)]
        have hsub : j - pos = (j - (pos + 1)) + 1 := by omega
        rw [hsub, byteAt_cons_succ]

/-- Helper: the list of segment positions has one entry per segment. -/
theorem length_segPositions (segs : List Bytes) : ∀ pos,
    (segPositions pos segs).length = segs.length := by
  induction segs with
  | nil => intro pos; rfl
  | cons seg rest ih => intro pos; simp [segPositions, ih]

/-- Helper: the SHORT segment loop fails with the overflow error when some
write position reaches 65536, provided every write position fits in the
buffer (the source slices buf at each position before the guard, so an
out-of-range position panics instead). -/
theorem putSegments_short_overflow (order : ByteOrder) (segs : List Bytes) :
    ∀ (j : Nat) (buf : Bytes) (pos : Nat) (od : Bytes),
    (∀ p ∈ segPositions pos segs, p ≤ buf.length) →
    (∃ p ∈ segPositions pos segs, 65536 ≤ p) →
    ∃ buf2 pos2 od2,
      putSegments order false segs j buf pos od =
        some (buf2, pos2, od2, some shortOffsetOverflowMsg) := by
  induction segs with
  | nil =>
      intro j buf pos od _ h
      simp [segPositions] at h
  | cons seg rest ih =>
      intro j buf pos od hbuf h
      unfold putSegments
      rw [if_neg (by have := hbuf pos (by simp [segPositions]); omega)]
      simp only [Bool.false_eq_true, if_false]
      by_cases hpos : 65536 ≤ pos
      · exact ⟨_, _, _, by rw [if_pos hpos]⟩
      · rw [if_neg hpos]
        obtain ⟨p, hp, hge⟩ := h
        simp only [segPositions, List.mem_cons] at hp
        rcases hp with rfl | hp
        · omega
        · refine ih (j + 1) _ (pos + seg.length) _ ?_ ⟨p, hp, hge⟩
          intro q hq
          rw [length_copyBytes]
          exact hbuf q (by simp [segPositions, hq])

/-- Helper: the SHORT segment loop succeeds when every write position is
below 65536 and fits in the buffer, storing each position exactly as a
16-bit value in the offset data array. -/
theorem putSegments_short_ok (order : ByteOrder) (segs : List Bytes) :
    ∀ (j : Nat) (buf : Bytes) (pos : Nat) (od : Bytes),
    (∀ p ∈ segPositions pos segs, p ≤ buf.length) →
    (∀ p ∈ segPositions pos segs, p < 65536) → 2 * (j + segs.length) ≤ od.length →
    ∃ buf2 od2,
      putSegments order false segs j buf pos od =
        some (buf2, pos + totalLen segs, od2, none) ∧
      od2.length = od.length ∧
      (∀ m, m < 2 * j → byteAt od2 m = byteAt od m) ∧
      (∀ k, k < segs.length → uint16At order od2 (2 * (j + k)) = segPositionAt pos segs k) := by
  induction segs with
  | nil =>
      intro j buf pos od _ _ _
      exact ⟨buf, od, by simp [putSegments, totalLen], rfl, fun m _ => rfl,
        fun k hk => absurd hk (by simp)⟩
  | cons seg rest ih =>
      intro j buf pos od hbuf hlt hroom
      have hposlt : pos < 65536 := by
        have := hlt pos (by simp [segPositions])
        omega
      have hroom2 : 2 * (j + 1 + rest.length) ≤ (putUint16At order od (2 * j) pos).length := by
        rw [length_putUint16At]
        simp at hroom
        omega
      have hbuf2 : ∀ p ∈ segPositions (pos + seg.length) rest,
          p ≤ (copyBytes buf pos seg).length := by
        intro p hp
        rw [length_copyBytes]
        exact hbuf p (by simp [segPositions, hp])
      have hlt2 : ∀ p ∈ segPositions (pos + seg.length) rest, p < 65536 := by
        intro p hp
        exact hlt p (by simp [segPositions, hp])
      obtain ⟨buf2, od2, heq, hlen, hlo, hvals⟩ :=
        ih (j + 1) (copyBytes buf pos seg) (pos + seg.length) (putUint16At order od (2 * j) pos)
          hbuf2 hlt2 hroom2
      refine ⟨buf2, od2, ?_, ?_, ?_, ?_⟩
      · unfold putSegments
        rw [if_neg (by have := hbuf pos (by simp [segPositions]); omega)]
        simp only [Bool.false_eq_true, if_false]
        rw [if_neg (by omega)]
        rw [heq]
        simp [totalLen]
        omega
      · rw [hlen, length_putUint16At]
      · intro m hm
        rw [hlo m (by omega), byteAt_putUint16At_ne _ _ _ _ _ (by omega)]
      · intro k hk
        cases k with
        | zero =>
            have hread : uint16At order od2 (2 * (j + 0)) =
                uint16At order (putUint16At order od (2 * j) pos) (2 * (j + 0)) := by
              apply uint16At_congr
              · exact hlo _ (by omega)
              · exact hlo _ (by omega)
            rw [hread]
            have h2j : (2 * (j + 0)) = 2 * j := by omega
            rw [h2j, uint16At_putUint16At order od (2 * j) pos (by simp at hroom; omega)]
            simp [segPositionAt, segPositions]
            omega
        | succ k0 =>
            have : 2 * (j + (k0 + 1)) = 2 * ((j + 1) + k0) := by omega
            rw [this, hvals k0 (by simp at hk; omega)]
            simp [segPositionAt, segPositions]

/-- C6 counterexample: with a SHORT offset field, a buffer large enough for
the write, and write position 32768 (at least 32768 but below 65536), the
segment loop of putImageData succeeds and stores 32768 as the 16-bit
offset, instead of failing as the claim requires. -/
theorem putSegments_pos32768_counterexample :
    ∃ buf2 od2,
      putSegments ByteOrder.little false [[7, 7]] 0 (List.replicate 32770 0) 32768 [0, 0] =
        some (buf2, 32770, od2, none) ∧
      uint16At ByteOrder.little od2 0 = 32768 := by
  obtain ⟨buf2, od2, heq, -, -, hvals⟩ :=
    putSegments_short_ok ByteOrder.little [[7, 7]] 0 (List.replicate 32770 0) 32768 [0, 0]
      (by intro p hp; simp [segPositions] at hp; rw [List.length_replicate]; omega)
      (by intro p hp; simp [segPositions] at hp; omega)
      (by decide)
  have hv := hvals 0 (by decide)
  have htot : (32768 : Nat) + totalLen [[7, 7]] = 32770 := by simp [totalLen]
  have hidx : 2 * (0 + 0) = 0 := by omega
  have hsp : segPositionAt 32768 [[7, 7]] 0 = 32768 := by
    simp [segPositionAt, segPositions]
  rw [htot] at heq
  rw [hidx, hsp] at hv
  exact ⟨buf2, od2, heq, hv⟩

/-- C6 amended: serializing the image data of an IFD whose offset field has
type SHORT, with every segment write position inside the buffer (the source
slices the buffer at each position before any check, so an out-of-range
position panics), fails with the short-offset-overflow error exactly when
some write position reaches 65536 (the source guard is the literal 2<<15,
which equals 65536, not 32768); when every position is smaller, the loop
succeeds and stores each position exactly as a 16-bit value. -/
theorem putSegments_short_threshold (order : ByteOrder) (segs : List Bytes) (j : Nat)
    (buf : Bytes) (pos : Nat) (od : Bytes)
    (hbuf : ∀ p ∈ segPositions pos segs, p ≤ buf.length)
    (hroom : 2 * (j + segs.length) ≤ od.length) :
    ((∃ p ∈ segPositions pos segs, 65536 ≤ p) →
      ∃ buf2 pos2 od2,
        putSegments order false segs j buf pos od =
          some (buf2, pos2, od2, some shortOffsetOverflowMsg)) ∧
    ((∀ p ∈ segPositions pos segs, p < 65536) →
      ∃ buf2 od2,
        putSegments order false segs j buf pos od =
          some (buf2, pos + totalLen segs, od2, none) ∧
        ∀ k, k < segs.length → uint16At order od2 (2 * (j + k)) = segPositionAt pos segs k) := by
  constructor
  · intro h
    exact putSegments_short_overflow order segs j buf pos od hbuf h
  · intro h
    obtain ⟨buf2, od2, heq, _, _, hvals⟩ :=
      putSegments_short_ok order segs j buf pos od hbuf h hroom
    exact ⟨buf2, od2, heq, hvals⟩

/-- C6 witness: the threshold theorem applied at position 65536 (overflow)
and at position 32768 (success, value stored exactly), each with a buffer
large enough for the write position. -/
theorem putSegments_short_threshold_witness :
    (∃ buf2 pos2 od2,
      putSegments ByteOrder.little false [[7, 7]] 0 (List.replicate 65538 0) 65536 [0, 0] =
        some (buf2, pos2, od2, some shortOffsetOverflowMsg)) ∧
    (∃ buf2 od2,
      putSegments ByteOrder.little false [[7, 7]] 0 (List.replicate 32770 0) 32768 [0, 0] =
        some (buf2, 32768 + totalLen [[7, 7]], od2, none) ∧
      ∀ k, k < ([[7, 7]] : List Bytes).length →
        uint16At ByteOrder.little od2 (2 * (0 + k)) = segPositionAt 32768 [[7, 7]] k) :=
  ⟨(putSegments_short_threshold ByteOrder.little [[7, 7]] 0 (List.replicate 65538 0) 65536
      [0, 0] (by intro p hp; simp [segPositions] at hp; rw [List.length_replicate]; omega) (by decide)).1
      (by exact ⟨65536, by simp [segPositions], by omega⟩),
    (putSegments_short_threshold ByteOrder.little [[7, 7]] 0 (List.replicate 32770 0) 32768
      [0, 0] (by intro p hp; simp [segPositions] at hp; rw [List.length_replicate]; omega) (by decide)).2
      (by intro p hp; simp [segPositions] at hp; omega)⟩

/-- C7: the endianness-symmetry claim requires the type-erased put accessors
to return normally; PutAnyRational on a well-formed RATIONAL field instead
panics unconditionally (the panic statement follows the switch rather than
being its default case), so the claim fails on the code. -/
theorem putAnyRational_rational_panics :
    Field.PutAnyRational ⟨0x11A, 5, 1, [0, 0, 0, 0, 0, 0, 0, 0]⟩ 1 2 0 ByteOrder.little =
      none := rfl

/-- C8 counterexample: Field.ASCII on an ASCII field with count 0 (empty data
slice) panics (none) instead of returning the empty string. -/
theorem ascii_empty_counterexample :
    Field.ASCII ⟨0x10F, 2, 0, []⟩ = none := rfl

/-- C8 amended: Field.ASCII is total only on fields with nonempty data; on a
zero-count field (empty data) it panics, and on nonempty data it returns a
value (the data minus one trailing NUL when present). -/
theorem ascii_total_iff_nonempty (f : Field) :
    (f.data = [] → f.ASCII = none) ∧ (f.data ≠ [] → (f.ASCII).isSome = true) := by
  constructor
  · intro h
    simp [Field.ASCII, h]
  · intro h
    have hlen : f.data.length ≠ 0 := by simpa using h
    unfold Field.ASCII
    rw [if_neg hlen]
    split <;> simp

/-- C8 witness: the amended statement applied to a concrete nonempty ASCII
field and specialized. -/
theorem ascii_total_iff_nonempty_witness :
    (Field.ASCII ⟨0x10F, 2, 3, [65, 66, 0]⟩).isSome = true :=
  (ascii_total_iff_nonempty ⟨0x10F, 2, 3, [65, 66, 0]⟩).2 (by decide)

/-- C3 counterexample: a buffer shorter than 8 bytes whose first two bytes
are a valid little-endian byte-order mark makes GetHeader panic (none) while
reading the magic number, instead of returning the invalid triple. -/
theorem getHeader_short_counterexample :
    GetHeader [0x49, 0x49] = none := rfl

/-- C3 amended: for buffers of length at least 8, GetHeader returns a triple
(no panic) and the triple is valid exactly when the byte-order mark is II or
MM, the magic number is 42, and the root IFD offset is nonzero; buffers
shorter than 8 bytes can panic instead. -/
theorem getHeader_characterization (buf : Bytes) (h8 : 8 ≤ buf.length) :
    ∃ hd : Header, GetHeader buf = some hd ∧
      (hd.valid = true ↔
        ((byteAt buf 0 = 0x49 ∧ byteAt buf 1 = 0x49) ∨
          (byteAt buf 0 = 0x4d ∧ byteAt buf 1 = 0x4d)) ∧
          uint16At (headerOrder buf) buf 2 = 42 ∧ uint32At (headerOrder buf) buf 4 ≠ 0) := by
  have h0 : byteAtP buf 0 = some (byteAt buf 0) := by
    unfold byteAtP byteAt
    rw [List.get?_eq_getElem?, List.getElem?_eq_getElem (by omega)]
    simp [List.getD, List.getElem?_eq_getElem (show 0 < buf.length by omega)]
  have h1 : byteAtP buf 1 = some (byteAt buf 1) := by
    unfold byteAtP byteAt
    simp [List.getD, List.getElem?_eq_getElem (show 1 < buf.length by omega)]
  have h16 : ∀ o, uint16AtP o buf 2 = some (uint16At o buf 2) := by
    intro o; unfold uint16AtP; rw [if_pos (by omega)]
  have h32 : ∀ o, uint32AtP o buf 4 = some (uint32At o buf 4) := by
    intro o; unfold uint32AtP; rw [if_pos (by omega)]
  unfold GetHeader getHeaderTail
  rw [h0, h1]
  simp only [h16, h32]
  by_cases hII : byteAt buf 0 = 0x49 ∧ byteAt buf 1 = 0x49
  · have hnotMM : byteAt buf 0 ≠ 0x4d := by omega
    have horder : headerOrder buf = ByteOrder.little := by
      unfold headerOrder; rw [if_neg hnotMM]
    rw [if_pos hII, horder]
    by_cases hmagic : uint16At ByteOrder.little buf 2 = 42
    · rw [if_neg (show ¬uint16At ByteOrder.little buf 2 ≠ 42 by simpa using hmagic)]
      by_cases hpos : uint32At ByteOrder.little buf 4 = 0
      · rw [if_pos hpos]
        exact ⟨_, rfl, by simp [hpos]⟩
      · rw [if_neg hpos]
        exact ⟨_, rfl, by simp [hII, hmagic, hpos]⟩
    · rw [if_pos hmagic]
      exact ⟨_, rfl, by simp [hmagic]⟩
  · rw [if_neg hII]
    by_cases hMM : byteAt buf 0 = 0x4d ∧ byteAt buf 1 = 0x4d
    · have horder : headerOrder buf = ByteOrder.big := by
        unfold headerOrder; rw [if_pos hMM.1]
      rw [if_pos hMM, horder]
      by_cases hmagic : uint16At ByteOrder.big buf 2 = 42
      · rw [if_neg (show ¬uint16At ByteOrder.big buf 2 ≠ 42 by simpa using hmagic)]
        by_cases hpos : uint32At ByteOrder.big buf 4 = 0
        · rw [if_pos hpos]
          exact ⟨_, rfl, by simp [hpos]⟩
        · rw [if_neg hpos]
          exact ⟨_, rfl, by simp [hII, hMM, hmagic, hpos]⟩
      · rw [if_pos hmagic]
        exact ⟨_, rfl, by simp [hmagic]⟩
    · rw [if_neg hMM]
      exact ⟨_, rfl, by simp [hII, hMM]⟩

/-- C2 counterexample: an 18-byte table at position 0 declares 2 entries, so
2 + 12*2 + 4 = 30 exceeds the buffer; salvage would recompute the count as
(18-2-4)/12 = 1 and return the one monotone field, but GetIFD instead
returns an IFD with no fields and the truncation error. -/
theorem getIFD_truncated_counterexample :
    GetIFD [2, 0, 3, 1, 3, 0, 1, 0, 0, 0, 1, 0, 0, 0, 0, 0, 0, 0] ByteOrder.little 0 [] =
      some ⟨⟨ByteOrder.little, [], []⟩, 0, some ⟨ErrIFDTruncated, 0, 2, 0⟩, 0⟩ := by decide

/-- C2 amended: when the declared entry count n is nonzero and the table
does not fit (pos + 2 + 12n + 4 exceeds the buffer, or the uint32 sum
wraps), GetIFD performs no salvage: it discards the field array and returns
an IFD with no fields together with the ErrIFDTruncated error, and does not
read the next pointer. -/
theorem getIFD_truncated_no_salvage (buf : Bytes) (order : ByteOrder) (pos : Nat)
    (spec : List ImageDataSpec)
    (h1 : ¬(add32 pos 2 < pos ∨ add32 pos 2 > buf.length))
    (h2 : ¬uint16At order buf pos = 0)
    (h3 : add32 pos (2 + uint16At order buf pos * 12 + 4) < pos ∨
      add32 pos (2 + uint16At order buf pos * 12 + 4) > buf.length) :
    GetIFD buf order pos spec =
      some ⟨⟨order, [], []⟩, 0, some ⟨ErrIFDTruncated, pos, uint16At order buf pos, 0⟩, 0⟩ := by
  unfold GetIFD
  dsimp only
  rw [if_neg h1, if_neg h2, if_pos h3]

/-- C2 witness: the no-salvage theorem applied to the concrete 18-byte
truncated table. -/
theorem getIFD_truncated_no_salvage_witness :
    GetIFD [2, 0, 3, 1, 3, 0, 1, 0, 0, 0, 1, 0, 0, 0, 0, 0, 0, 1] ByteOrder.little 0
        [⟨StripOffsets, StripByteCounts⟩] =
      some ⟨⟨ByteOrder.little, [], []⟩, 0,
        some ⟨ErrIFDTruncated, 0,
          uint16At ByteOrder.little [2, 0, 3, 1, 3, 0, 1, 0, 0, 0, 1, 0, 0, 0, 0, 0, 0, 1] 0, 0⟩,
        0⟩ :=
  getIFD_truncated_no_salvage [2, 0, 3, 1, 3, 0, 1, 0, 0, 0, 1, 0, 0, 0, 0, 0, 0, 1]
    ByteOrder.little 0 [⟨StripOffsets, StripByteCounts⟩] (by decide) (by decide) (by decide)

/-- C4 counterexample: a 30-byte table with two entries whose first field
has size 5 and data offset 100 (out of range).  The claim says that single
field is skipped and parsing continues with the second field; instead GetIFD
aborts the whole table with ErrFieldData, leaving the second entry as the
zero field, never parsed. -/
theorem getIFD_field_data_counterexample :
    GetIFD
        [2, 0, 1, 0, 1, 0, 5, 0, 0, 0, 100, 0, 0, 0, 3, 1, 3, 0, 1, 0, 0, 0, 1, 0, 0, 0, 0,
          0, 0, 0] ByteOrder.little 0 [] =
      some ⟨⟨ByteOrder.little, [⟨1, 1, 5, []⟩, ⟨0, 0, 0, []⟩], []⟩, 0,
        some ⟨ErrFieldData, 0, 2, 1⟩, 0⟩ := by decide

/-- C4 amended: when an entry has field size greater than 4 and its absolute
data offset fails the bounds check (wrap, or offset + size - 1 past the
buffer), the entry loop stops at once: it returns the error carrying that
entry's tag, the offending field keeps tag, type and count but no data, and
every remaining entry of the table is left as the zero field rather than
being parsed. -/
theorem getFieldsLoop_bad_data_stops (buf : Bytes) (order : ByteOrder) (k pos : Nat)
    (hsize : typeSize (uint16At order buf (pos + 2) % 256) * uint32At order buf (pos + 4) %
      4294967296 > 4)
    (hbad : (uint32At order buf (pos + 8) +
        typeSize (uint16At order buf (pos + 2) % 256) * uint32At order buf (pos + 4) %
          4294967296 - 1) % 4294967296 < uint32At order buf (pos + 8) ∨
      (uint32At order buf (pos + 8) +
        typeSize (uint16At order buf (pos + 2) % 256) * uint32At order buf (pos + 4) %
          4294967296 - 1) % 4294967296 > buf.length) :
    getFieldsLoop buf order (k + 1) pos =
      Except.error
        (⟨uint16At order buf pos, uint16At order buf (pos + 2) % 256,
            uint32At order buf (pos + 4), []⟩ :: List.replicate k defaultField,
          uint16At order buf pos) := by
  unfold getFieldsLoop
  dsimp only
  rw [if_pos hsize, if_pos hbad]

/-- C4 witness: the loop-abort theorem applied to the first entry of the
concrete out-of-range table. -/
theorem getFieldsLoop_bad_data_stops_witness :
    getFieldsLoop
        [2, 0, 1, 0, 1, 0, 5, 0, 0, 0, 100, 0, 0, 0, 3, 1, 3, 0, 1, 0, 0, 0, 1, 0, 0, 0, 0,
          0, 0, 0] ByteOrder.little (1 + 1) 2 =
      Except.error
        (⟨uint16At ByteOrder.little
              [2, 0, 1, 0, 1, 0, 5, 0, 0, 0, 100, 0, 0, 0, 3, 1, 3, 0, 1, 0, 0, 0, 1, 0, 0, 0,
                0, 0, 0, 0] 2,
            uint16At ByteOrder.little
                [2, 0, 1, 0, 1, 0, 5, 0, 0, 0, 100, 0, 0, 0, 3, 1, 3, 0, 1, 0, 0, 0, 1, 0, 0,
                  0, 0, 0, 0, 0] (2 + 2) % 256,
            uint32At ByteOrder.little
              [2, 0, 1, 0, 1, 0, 5, 0, 0, 0, 100, 0, 0, 0, 3, 1, 3, 0, 1, 0, 0, 0, 1, 0, 0, 0,
                0, 0, 0, 0] (2 + 4), []⟩ :: List.replicate 1 defaultField,
          uint16At ByteOrder.little
            [2, 0, 1, 0, 1, 0, 5, 0, 0, 0, 100, 0, 0, 0, 3, 1, 3, 0, 1, 0, 0, 0, 1, 0, 0, 0,
              0, 0, 0, 0] 2) :=
  getFieldsLoop_bad_data_stops
    [2, 0, 1, 0, 1, 0, 5, 0, 0, 0, 100, 0, 0, 0, 3, 1, 3, 0, 1, 0, 0, 0, 1, 0, 0, 0, 0, 0, 0,
      0] ByteOrder.little 1 2 (by decide) (by decide)

/-- C5 counterexample: a table with entry count 0 whose next-pointer slot
holds 20.  The claim says GetIFD yields a soft empty error and still reads
the next pointer; instead it returns no error at all and next position 0, so
the Next chain is dropped. -/
theorem getIFD_empty_counterexample :
    GetIFD [0, 0, 20, 0, 0, 0] ByteOrder.little 0 [] =
      some ⟨⟨ByteOrder.little, [], []⟩, 0, none, 0⟩ := by decide

/-- C5 amended: reading an IFD table whose 16-bit entry count is zero yields
an empty IFD with no error of any kind, and the trailing next pointer is not
read (the next position is returned as 0), so an empty root IFD with a
nonzero next pointer parses to a tree without the Next chain. -/
theorem getIFD_zero_entries (buf : Bytes) (order : ByteOrder) (pos : Nat)
    (spec : List ImageDataSpec)
    (h1 : ¬(add32 pos 2 < pos ∨ add32 pos 2 > buf.length))
    (h2 : uint16At order buf pos = 0) :
    GetIFD buf order pos spec = some ⟨⟨order, [], []⟩, 0, none, 0⟩ := by
  unfold GetIFD
  dsimp only
  rw [if_neg h1, if_pos h2]

/-- C5 witness: the zero-entry theorem applied to a concrete empty table
with a nonzero next-pointer slot. -/
theorem getIFD_zero_entries_witness :
    GetIFD [0, 0, 20, 0, 0, 0, 0, 0] ByteOrder.little 0 TIFFImageData =
      some ⟨⟨ByteOrder.little, [], []⟩, 0, none, 0⟩ :=
  getIFD_zero_entries [0, 0, 20, 0, 0, 0, 0, 0] ByteOrder.little 0 TIFFImageData (by decide)
    (by decide)

/-- Helper: byte reads are below 256. -/
theorem byteAt_lt (buf : Bytes) (i : Nat) : byteAt buf i < 256 := Nat.mod_lt _ (by omega)

/-- Helper: 16-bit reads are below 2^16. -/
theorem uint16At_lt (order : ByteOrder) (buf : Bytes) (pos : Nat) :
    uint16At order buf pos < 65536 := by
  have h1 := byteAt_lt buf pos
  have h2 := byteAt_lt buf (pos + 1)
  cases order <;> simp only [uint16At] <;> omega

/-- Helper: 32-bit reads are below 2^32. -/
theorem uint32At_lt (order : ByteOrder) (buf : Bytes) (pos : Nat) :
    uint32At order buf pos < 4294967296 := by
  have h1 := byteAt_lt buf pos
  have h2 := byteAt_lt buf (pos + 1)
  have h3 := byteAt_lt buf (pos + 2)
  have h4 := byteAt_lt buf (pos + 3)
  cases order <;> simp only [uint32At] <;> omega

/-- Helper: the Bool membership test agrees with list membership. -/
theorem contains_eq_mem (l : List Nat) (p : Nat) : l.contains p = true ↔ p ∈ l := by
  simp [List.contains_iff_exists_mem_beq]

/-- Helper: checked 32-bit reads are below 2^32. -/
theorem uint32AtP_lt (order : ByteOrder) (buf : Bytes) (pos v : Nat)
    (h : uint32AtP order buf pos = some v) : v < 4294967296 := by
  unfold uint32AtP at h
  split at h
  · cases h; exact uint32At_lt ..
  · cases h

/-- Helper: Field.LongP values are below 2^32. -/
theorem longP_lt (f : Field) (i : Nat) (order : ByteOrder) (v : Nat)
    (h : f.LongP i order = some v) : v < 4294967296 :=
  uint32AtP_lt _ _ _ _ h

/-- Helper: the root position GetHeader returns is below 2^32. -/
theorem getHeaderTail_ifdPos_lt (buf : Bytes) (order : ByteOrder) (hd : Header)
    (h : getHeaderTail buf order = some hd) : hd.ifdPos < 4294967296 := by
  unfold getHeaderTail at h
  split at h
  · cases h
  next magic hm =>
    split at h
    · cases h; simp
    · split at h
      · cases h
      next v hv =>
        have := uint32AtP_lt _ _ _ _ hv
        split at h <;> (cases h; simp) <;> omega

/-- Helper: GetHeader returns a 32-bit root position. -/
theorem getHeader_ifdPos_lt (buf : Bytes) (hd : Header) (h : GetHeader buf = some hd) :
    hd.ifdPos < 4294967296 := by
  unfold GetHeader at h
  split at h
  · split at h
    · exact getHeaderTail_ifdPos_lt _ _ _ h
    · split at h
      · exact getHeaderTail_ifdPos_lt _ _ _ h
      · cases h; simp
  · cases h

/-- Helper: a makerNote data position recorded by the entry loop is below
2^32 whenever the table lies below 2^32. -/
theorem getFieldsLoop_makerPos_lt (buf : Bytes) (order : ByteOrder) (k : Nat) :
    ∀ (pos : Nat), pos + 12 * k < 4294967296 →
    ∀ fs mp p, getFieldsLoop buf order k pos = Except.ok (fs, mp) → mp = some p →
    p < 4294967296 := by
  induction k with
  | zero =>
      intro pos hb fs mp p hok hmp
      unfold getFieldsLoop at hok
      cases hok
      cases hmp
  | succ k ih =>
      intro pos hb fs mp p hok hmp
      unfold getFieldsLoop at hok
      dsimp only at hok
      split at hok
      · -- out-of-line entry
        split at hok
        · cases hok
        · split at hok
          · cases hok
          next fs2 mp2 heq =>
            cases hok
            cases mp2 with
            | some p2 =>
                dsimp only at hmp
                cases hmp
                exact ih (pos + 12) (by omega) fs2 (some p) p heq rfl
            | none =>
                dsimp only at hmp
                split at hmp
                · cases hmp
                  exact uint32At_lt ..
                · cases hmp
      · -- inline entry
        split at hok
        · cases hok
        next fs2 mp2 heq =>
          cases hok
          cases mp2 with
          | some p2 =>
              dsimp only at hmp
              cases hmp
              exact ih (pos + 12) (by omega) fs2 (some p) p heq rfl
          | none =>
              dsimp only at hmp
              split at hmp
              · cases hmp
                omega
              · cases hmp

/-- Helper: the next pointer and makerNote position GetIFD returns are both
below 2^32 when the table position is. -/
theorem getIFD_outputs_lt (buf : Bytes) (order : ByteOrder) (pos : Nat)
    (spec : List ImageDataSpec) (hpos : pos < 4294967296) (r : GetIFDResult)
    (h : GetIFD buf order pos spec = some r) : r.next < 4294967296 ∧ r.makerPos < 4294967296 := by
  unfold GetIFD at h
  dsimp only at h
  split at h
  · cases h; exact ⟨by dsimp only; omega, by dsimp only; omega⟩
  · split at h
    · cases h; exact ⟨by dsimp only; omega, by dsimp only; omega⟩
    · split at h
      · cases h; exact ⟨by dsimp only; omega, by dsimp only; omega⟩
      next htrunc =>
        have hent := uint16At_lt order buf pos
        have hfit : pos + (2 + uint16At order buf pos * 12 + 4) < 4294967296 := by
          by_contra hge
          push_neg at hge
          apply htrunc
          unfold add32
          left
          omega
        split at h
        · cases h; exact ⟨by dsimp only; omega, by dsimp only; omega⟩
        next fields mp heq =>
          split at h
          · cases h
          · cases h; exact ⟨by dsimp only; omega, by dsimp only; omega⟩
          next ids heq2 =>
            cases h
            refine ⟨uint32At_lt .., ?_⟩
            dsimp only
            cases mp with
            | none => dsimp only; omega
            | some p =>
                dsimp only
                exact getFieldsLoop_makerPos_lt buf order (uint16At order buf pos) (pos + 2)
                  (by omega) fields (some p) p heq rfl

/-- Helper: sub-space transitions preserve maker safety. -/
theorem subSpace_safe (s : TagSpace) (tag : Nat) (h : makerSafeSpace s) :
    makerSafeSpace (s.SubSpace tag) := by
  obtain ⟨h1, h2⟩ := h
  cases s <;> simp_all [TagSpace.SubSpace, makerSafeSpace] <;> split_ifs <;> simp

/-- Helper: next-space transitions preserve maker safety. -/
theorem nextSpace_safe (s : TagSpace) (h : makerSafeSpace s) :
    makerSafeSpace (nextSpace s) := by
  obtain ⟨h1, h2⟩ := h
  cases s <;> simp_all [nextSpace, makerSafeSpace]

/-- Helper: the sub-IFD index loop satisfies the termination postconditions
whenever the tree walk at the same fuel does. -/
theorem jLoop_post (buf : Bytes) (order : ByteOrder) (fuel : Nat)
    (hA : ∀ (pos : Nat) (space : TagSpace) (seen : List Nat) (maker : MakerData),
      seenOK seen → pos < 4294967296 → makerOK maker → 4294967296 ≤ fuel + seen.length →
      iterPost space seen maker (getIFDTreeIter buf order fuel pos space seen maker)) :
    ∀ (rem : Nat) (f : Field) (j : Nat) (space : TagSpace) (seen : List Nat)
      (maker : MakerData),
    seenOK seen → makerOK maker → 4294967296 ≤ fuel + seen.length →
    subsPost space seen maker (getSubIFDJLoop buf order fuel space f j rem seen maker) := by
  intro rem
  induction rem with
  | zero =>
      intro f j space seen maker hs hm hf
      rw [getSubIFDJLoop]
      exact ⟨hs, le_refl _, hm, fun _ => rfl⟩
  | succ k ih =>
      intro f j space seen maker hs hm hf
      rw [getSubIFDJLoop]
      cases hlp : f.LongP j order with
      | none => simp [subsPost]
      | some subpos =>
          dsimp only
          have hiter := hA subpos (space.SubSpace f.tag) seen maker hs
            (longP_lt _ _ _ _ hlp) hm hf
          cases hres : getIFDTreeIter buf order fuel subpos (space.SubSpace f.tag) seen
              maker with
          | panic => trivial
          | fuelOut => rw [hres] at hiter; simp [iterPost] at hiter
          | fail e => trivial
          | ok subnode seen2 maker2 =>
              rw [hres] at hiter
              dsimp only
              obtain ⟨hs2, hlen2, hm2, hsafe2⟩ := hiter
              have hrest := ih f (j + 1) space seen2 maker2 hs2 hm2 (by omega)
              cases hres2 : getSubIFDJLoop buf order fuel space f (j + 1) k seen2 maker2 with
              | panic => trivial
              | fuelOut => rw [hres2] at hrest; simp [subsPost] at hrest
              | fail e => trivial
              | ok subs seen3 maker3 =>
                  rw [hres2] at hrest
                  (try dsimp only)
                  obtain ⟨hs3, hlen3, hm3, hsafe3⟩ := hrest
                  refine ⟨hs3, by omega, hm3, fun hsafe => ?_⟩
                  rw [hsafe3 hsafe, hsafe2 (subSpace_safe _ _ hsafe)]

/-- Helper: the maker bookkeeping keeps the maker position 32-bit and, in a
maker-safe namespace, changes nothing. -/
theorem makerUpdate_facts (space : TagSpace) (f : Field) (mp : Nat) (maker m2 : MakerData)
    (h : makerUpdate space f mp maker = some m2) (hm : makerOK maker)
    (hmp : mp < 4294967296) :
    makerOK m2 ∧ (makerSafeSpace space → m2 = maker) := by
  cases space
  -- TIFF space
  · simp only [makerUpdate] at h
    split at h
    · cases hA : f.ASCII with
      | none => rw [hA] at h; cases h
      | some s =>
          rw [hA] at h
          cases h
          exact ⟨hm, fun hsafe => (hsafe.1 rfl).elim⟩
    · split at h
      · cases hA : f.ASCII with
        | none => rw [hA] at h; cases h
        | some s =>
            rw [hA] at h
            cases h
            exact ⟨hm, fun hsafe => (hsafe.1 rfl).elim⟩
      · cases h
        exact ⟨hm, fun _ => rfl⟩
  -- Unknown space
  · simp only [makerUpdate] at h
    cases h
    exact ⟨hm, fun _ => rfl⟩
  -- Exif space
  · simp only [makerUpdate] at h
    split at h
    · cases h
      exact ⟨by simpa [makerOK] using hmp, fun hsafe => (hsafe.2 rfl).elim⟩
    · cases h
      exact ⟨hm, fun _ => rfl⟩
  all_goals
    simp only [makerUpdate] at h
    cases h
    exact ⟨hm, fun _ => rfl⟩

/-- Helper: the field loop satisfies the termination postconditions whenever
the tree walk at the same fuel does. -/
theorem fieldsLoop_post (buf : Bytes) (order : ByteOrder) (fuel : Nat)
    (hA : ∀ (pos : Nat) (space : TagSpace) (seen : List Nat) (maker : MakerData),
      seenOK seen → pos < 4294967296 → makerOK maker → 4294967296 ≤ fuel + seen.length →
      iterPost space seen maker (getIFDTreeIter buf order fuel pos space seen maker)) :
    ∀ (fields : List Field) (makerPos : Nat) (space : TagSpace) (seen : List Nat)
      (maker : MakerData),
    seenOK seen → makerOK maker → makerPos < 4294967296 → 4294967296 ≤ fuel + seen.length →
    subsPost space seen maker
      (getSubIFDsLoop buf order fuel space makerPos fields seen maker) := by
  intro fields
  induction fields with
  | nil =>
      intro mp space seen maker hs hm hmp hf
      rw [getSubIFDsLoop]
      exact ⟨hs, le_refl _, hm, fun _ => rfl⟩
  | cons f rest ih =>
      intro mp space seen maker hs hm hmp hf
      rw [getSubIFDsLoop]
      by_cases hifd : f.IsIFD space
      · rw [if_pos hifd]
        have hj := jLoop_post buf order fuel hA f.count f 0 space seen maker hs hm hf
        cases hres : getSubIFDJLoop buf order fuel space f 0 f.count seen maker with
        | panic => trivial
        | fuelOut => rw [hres] at hj; simp [subsPost] at hj
        | fail e => trivial
        | ok subs seen2 maker2 =>
            rw [hres] at hj
            dsimp only
            obtain ⟨hs2, hlen2, hm2, hsafe2⟩ := hj
            have hrest := ih mp space seen2 maker2 hs2 hm2 hmp (by omega)
            cases hres2 : getSubIFDsLoop buf order fuel space mp rest seen2 maker2 with
            | panic => trivial
            | fuelOut => rw [hres2] at hrest; simp [subsPost] at hrest
            | fail e => trivial
            | ok subs2 seen3 maker3 =>
                rw [hres2] at hrest
                (try dsimp only)
                obtain ⟨hs3, hlen3, hm3, hsafe3⟩ := hrest
                refine ⟨hs3, by omega, hm3, fun hsafe => ?_⟩
                rw [hsafe3 hsafe, hsafe2 hsafe]
      · rw [if_neg hifd]
        cases hupd : makerUpdate space f mp maker with
        | none => trivial
        | some maker2 =>
            dsimp only
            have hfacts := makerUpdate_facts space f mp maker maker2 hupd hm hmp
            obtain ⟨hm2, hsafeU⟩ := hfacts
            have hrest := ih mp space seen maker2 hs hm2 hmp hf
            cases hres2 : getSubIFDsLoop buf order fuel space mp rest seen maker2 with
            | panic => trivial
            | fuelOut => rw [hres2] at hrest; simp [subsPost] at hrest
            | fail e => trivial
            | ok subs2 seen3 maker3 =>
                rw [hres2] at hrest
                obtain ⟨hs3, hlen3, hm3, hsafe3⟩ := hrest
                refine ⟨hs3, hlen3, hm3, fun hsafe => ?_⟩
                rw [hsafe3 hsafe, hsafeU hsafe]

/-- Helper: the tree walk never exhausts fuel covering the number of unseen
32-bit positions, and on success the visited set grows, the maker position
stays 32-bit, and maker-safe walks leave the maker data untouched. -/
theorem iter_post (buf : Bytes) (order : ByteOrder) :
    ∀ (fuel : Nat) (pos : Nat) (space : TagSpace) (seen : List Nat) (maker : MakerData),
    seenOK seen → pos < 4294967296 → makerOK maker → 4294967296 ≤ fuel + seen.length →
    iterPost space seen maker (getIFDTreeIter buf order fuel pos space seen maker) := by
  intro fuel
  induction fuel with
  | zero =>
      intro pos space seen maker hs hpos hm hf
      rw [getIFDTreeIter]
      by_cases hc : seen.contains pos
      · rw [if_pos hc]; trivial
      · exfalso
        have hmem : pos ∉ seen := fun hp => hc ((contains_eq_mem seen pos).mpr hp)
        obtain ⟨hnd, hbound⟩ := hs
        have h1 : seen.toFinset.card = seen.length := List.toFinset_card_of_nodup hnd
        have h2 : insert pos seen.toFinset ⊆ Finset.range 4294967296 := by
          intro x hx
          rcases Finset.mem_insert.mp hx with rfl | hx2
          · exact Finset.mem_range.mpr hpos
          · exact Finset.mem_range.mpr (hbound x (List.mem_toFinset.mp hx2))
        have h3 : (insert pos seen.toFinset).card = seen.length + 1 := by
          rw [Finset.card_insert_of_not_mem (by simpa using hmem), h1]
        have h4 := Finset.card_le_card h2
        rw [h3, Finset.card_range] at h4
        omega
  | succ fuel ih =>
      intro pos space seen maker hs hpos hm hf
      rw [getIFDTreeIter]
      by_cases hc : seen.contains pos
      · rw [if_pos hc]; trivial
      · rw [if_neg hc]
        dsimp only
        have hmem : pos ∉ seen := fun hp => hc ((contains_eq_mem seen pos).mpr hp)
        have hseen2 : seenOK (pos :: seen) := by
          refine ⟨List.nodup_cons.mpr ⟨hmem, hs.1⟩, ?_⟩
          intro p hp
          rcases List.mem_cons.mp hp with rfl | hp2
          · exact hpos
          · exact hs.2 p hp2
        cases hg : GetIFD buf order pos (if space = TagSpace.tiff then TIFFImageData else [])
            with
        | none => trivial
        | some r =>
            dsimp only
            cases herr : r.err with
            | some e => trivial
            | none =>
                have houts := getIFD_outputs_lt buf order pos _ hpos r hg
                have hsubs := fieldsLoop_post buf order fuel ih r.ifd.fields r.makerPos space
                  (pos :: seen) maker hseen2 hm houts.2 (by simp; omega)
                cases hres : getSubIFDsLoop buf order fuel space r.makerPos r.ifd.fields
                    (pos :: seen) maker with
                | panic => trivial
                | fuelOut => rw [hres] at hsubs; simp [subsPost] at hsubs
                | fail e => trivial
                | ok subs seen3 maker3 =>
                    rw [hres] at hsubs
                    dsimp only
                    obtain ⟨hs3, hlen3, hm3, hsafe3⟩ := hsubs
                    by_cases hnext : r.next ≠ 0
                    · rw [if_pos hnext]
                      have hiter2 := ih r.next (nextSpace space) seen3 maker3 hs3 houts.1 hm3
                        (by simp at hlen3; omega)
                      cases hres2 : getIFDTreeIter buf order fuel r.next (nextSpace space)
                          seen3 maker3 with
                      | panic => trivial
                      | fuelOut => rw [hres2] at hiter2; simp [iterPost] at hiter2
                      | fail e => trivial
                      | ok nextNode seen4 maker4 =>
                          rw [hres2] at hiter2
                          (try dsimp only)
                          obtain ⟨hs4, hlen4, hm4, hsafe4⟩ := hiter2
                          refine ⟨hs4, by simp at hlen3; omega, hm4, fun hsafe => ?_⟩
                          rw [hsafe4 (nextSpace_safe _ hsafe), hsafe3 hsafe]
                    · rw [if_neg hnext]
                      refine ⟨hs3, by simp at hlen3; omega, hm3, fun hsafe => hsafe3 hsafe⟩

/-- C10 counterexample: AddFields with an empty list returns before sorting,
so a receiver whose fields are out of tag order stays out of order; the
claim promises the sorted-by-tag invariant holds after every call. -/
theorem addFields_empty_counterexample :
    ¬ List.Pairwise (fun a b : Field => a.tag ≤ b.tag)
      ((IFD_T.AddFields ⟨ByteOrder.little, [⟨2, 1, 1, []⟩, ⟨1, 1, 1, []⟩], []⟩ []).fields) := by
  decide

/-- C10 amended: when the added list is nonempty, AddFields leaves the field
list as exactly the multiset union of the stored and added fields, sorted in
non-decreasing tag order (the whole list is re-sorted, so the invariant
holds even for an unsorted receiver); when the added list is empty the call
returns immediately and the receiver is left untouched, sorted or not. -/
theorem addFields_sorted_perm (ifd : IFD_T) (fields : List Field) (h : fields ≠ []) :
    ((ifd.AddFields fields).fields).Perm (ifd.fields ++ fields) ∧
    List.Pairwise (fun a b : Field => a.tag ≤ b.tag) ((ifd.AddFields fields).fields) := by
  unfold IFD_T.AddFields
  rw [if_neg (by simpa using h)]
  refine ⟨List.perm_insertionSort _ _, ?_⟩
  exact List.sorted_insertionSort (fun a b : Field => a.tag ≤ b.tag) (ifd.fields ++ fields)

/-- C10 witness: the amended statement applied to a concrete unsorted
receiver and a one-field addition. -/
theorem addFields_sorted_perm_witness :
    ((IFD_T.AddFields ⟨ByteOrder.little, [⟨2, 1, 1, []⟩, ⟨1, 1, 1, []⟩], []⟩
        [⟨3, 1, 1, []⟩]).fields).Perm
        ([⟨2, 1, 1, []⟩, ⟨1, 1, 1, []⟩] ++ [⟨3, 1, 1, []⟩]) ∧
    List.Pairwise (fun a b : Field => a.tag ≤ b.tag)
      ((IFD_T.AddFields ⟨ByteOrder.little, [⟨2, 1, 1, []⟩, ⟨1, 1, 1, []⟩], []⟩
        [⟨3, 1, 1, []⟩]).fields) :=
  addFields_sorted_perm ⟨ByteOrder.little, [⟨2, 1, 1, []⟩, ⟨1, 1, 1, []⟩], []⟩ [⟨3, 1, 1, []⟩]
    (by decide)

/-- C3 witness: the characterization applied to a concrete valid 8-byte
header buffer. -/
theorem getHeader_characterization_witness :
    ∃ hd : Header, GetHeader [0x49, 0x49, 42, 0, 8, 0, 0, 0] = some hd ∧
      (hd.valid = true ↔
        ((byteAt [0x49, 0x49, 42, 0, 8, 0, 0, 0] 0 = 0x49 ∧
            byteAt [0x49, 0x49, 42, 0, 8, 0, 0, 0] 1 = 0x49) ∨
          (byteAt [0x49, 0x49, 42, 0, 8, 0, 0, 0] 0 = 0x4d ∧
            byteAt [0x49, 0x49, 42, 0, 8, 0, 0, 0] 1 = 0x4d)) ∧
          uint16At (headerOrder [0x49, 0x49, 42, 0, 8, 0, 0, 0])
              [0x49, 0x49, 42, 0, 8, 0, 0, 0] 2 = 42 ∧
            uint32At (headerOrder [0x49, 0x49, 42, 0, 8, 0, 0, 0])
              [0x49, 0x49, 42, 0, 8, 0, 0, 0] 4 ≠ 0) :=
  getHeader_characterization [0x49, 0x49, 42, 0, 8, 0, 0, 0] (by decide)

/-- Helper: the visited set starts empty and wellformed. -/
theorem seenOK_nil : seenOK [] := ⟨List.nodup_nil, fun p hp => absurd hp (List.not_mem_nil p)⟩

/-- Helper: a maker-safe root (both nested maker-note reparses use the
Nikon2 namespace) never exhausts nesting fuel and never runs the maker
phase, so one unit of nesting fuel suffices. -/
theorem fueled_safe_no_fuelOut (m : Nat) (hm1 : 1 ≤ m) (buf : Bytes) (order : ByteOrder)
    (pos : Nat) (hpos : pos < 4294967296) (space : TagSpace) (hsafe : makerSafeSpace space) :
    getIFDTreeFueled m buf order pos space ≠ TreeResult.fuelOut := by
  obtain ⟨k, rfl⟩ : ∃ k, m = k + 1 := ⟨m - 1, by omega⟩
  rw [getIFDTreeFueled]
  have hpost := iter_post buf order ifdTreeIterFuel pos space [] ⟨[], [], 0⟩
    seenOK_nil hpos (by simp [makerOK]) (by simp [ifdTreeIterFuel])
  cases hres : getIFDTreeIter buf order ifdTreeIterFuel pos space [] ⟨[], [], 0⟩ with
  | panic => simp
  | fuelOut => rw [hres] at hpost; simp [iterPost] at hpost
  | fail e => simp
  | ok tree seen maker =>
      rw [hres] at hpost
      obtain ⟨-, -, -, hsafeEq⟩ := hpost
      dsimp only
      rw [hsafeEq hsafe]
      simp

/-- Helper: the maker-note phase never exhausts nesting fuel when at least
one unit remains, because both nested tree reparses root in the Nikon2
namespace. -/
theorem getMakerNote_no_fuelOut (m : Nat) (hm1 : 1 ≤ m) (buf : Bytes) (order : ByteOrder)
    (maker : MakerData) (hmk : makerOK maker) (tree : IFDNode) :
    getMakerNote m buf order maker tree ≠ MakerResult.fuelOut := by
  rw [getMakerNote]
  by_cases h1 : maker.position > buf.length
  · rw [if_pos h1]; simp
  · rw [if_neg h1]
    by_cases h2 : hasLabelAt buf maker.position nikon1Label = true
    · rw [if_pos h2]
      cases hg : GetIFD buf order (maker.position + nikon1Label.length) [] with
      | none => simp
      | some r =>
          dsimp only
          cases r.err with
          | some e => simp
          | none => simp
    · rw [if_neg h2]
      by_cases h3 : hasLabelAt buf maker.position nikon2Pfx = true
      · rw [if_pos h3]
        by_cases h4 : maker.position + 10 > buf.length
        · rw [if_pos h4]; simp
        · rw [if_neg h4]
          cases hh : GetHeader (buf.drop (maker.position + 10)) with
          | none => simp
          | some hd =>
              dsimp only
              by_cases h5 : hd.valid = false
              · rw [if_pos h5]; simp
              · rw [if_neg h5]
                cases ho : hd.order with
                | none => simp
                | some ord2 =>
                    dsimp only
                    have hno := fueled_safe_no_fuelOut m hm1 (buf.drop (maker.position + 10))
                      ord2 hd.ifdPos (getHeader_ifdPos_lt _ hd hh) .nikon2
                      ⟨by decide, by decide⟩
                    cases hres : getIFDTreeFueled m (buf.drop (maker.position + 10)) ord2
                        hd.ifdPos .nikon2 with
                    | panic => simp
                    | fuelOut => exact absurd hres hno
                    | res t e => cases t <;> cases e <;> simp
      · rw [if_neg h3]
        by_cases h6 : hasLabelAt buf maker.position panasonicLabel = true
        · rw [if_pos h6]
          cases hg : GetIFD buf order (maker.position + panasonicLabel.length) [] with
          | none => simp
          | some r =>
              dsimp only
              cases r.err with
              | some e => simp
              | none => simp
        · rw [if_neg h6]
          by_cases h7 : makeIsNikon maker.make = true
          · rw [if_pos h7]
            cases hb : byteAtP buf maker.position with
            | none => simp
            | some b0 =>
                dsimp only
                have hno := fueled_safe_no_fuelOut m hm1 buf
                  (if b0 = 0 then ByteOrder.big else ByteOrder.little) maker.position hmk
                  .nikon2 ⟨by decide, by decide⟩
                cases hres : getIFDTreeFueled m buf
                    (if b0 = 0 then ByteOrder.big else ByteOrder.little) maker.position
                    .nikon2 with
                | panic => simp
                | fuelOut => exact absurd hres hno
                | res t e =>
                    cases t with
                    | none => cases e <;> simp
                    | some node =>
                        cases e with
                        | some e2 => simp
                        | none =>
                            dsimp only
                            cases hff : (node.setSpaceRec (.nikon2Rec
                                [])).ifd.FindFields [Nikon2MakerNoteVersion] with
                            | nil => simp
                            | cons f fs =>
                                cases fs with
                                | nil =>
                                    dsimp only
                                    by_cases hft : f.type = 7 ∧ f.count = 4
                                    · rw [if_pos hft]; simp
                                    · rw [if_neg hft]; simp
                                | cons g gs => simp
          · rw [if_neg h7]; simp

/-- Helper: with two units of nesting fuel the fueled tree walk never
returns the fuel-exhaustion artifact, for every 32-bit root position. -/
theorem fueled_no_fuelOut (m : Nat) (hm2 : 2 ≤ m) (buf : Bytes) (order : ByteOrder)
    (pos : Nat) (hpos : pos < 4294967296) (space : TagSpace) :
    getIFDTreeFueled m buf order pos space ≠ TreeResult.fuelOut := by
  obtain ⟨k, rfl⟩ : ∃ k, m = k + 1 := ⟨m - 1, by omega⟩
  have hk : 1 ≤ k := by omega
  rw [getIFDTreeFueled]
  have hpost := iter_post buf order ifdTreeIterFuel pos space [] ⟨[], [], 0⟩
    seenOK_nil hpos (by simp [makerOK]) (by simp [ifdTreeIterFuel])
  cases hres : getIFDTreeIter buf order ifdTreeIterFuel pos space [] ⟨[], [], 0⟩ with
  | panic => simp
  | fuelOut => rw [hres] at hpost; simp [iterPost] at hpost
  | fail e => simp
  | ok tree seen maker =>
      rw [hres] at hpost
      obtain ⟨-, -, hmk, -⟩ := hpost
      dsimp only
      by_cases hp0 : maker.position ≠ 0
      · rw [if_pos hp0]
        have hgm := getMakerNote_no_fuelOut k hk buf order maker hmk tree
        cases hg2 : getMakerNote k buf order maker tree with
        | panic => simp
        | fuelOut => exact absurd hg2 hgm
        | fail e => simp
        | ok t2 => simp
      · rw [if_neg hp0]; simp

/-- C9: the tree walk terminates on every input.  First, whenever a sub-IFD
link or next link resolves to a position already in the visited set, the
walk returns the reference-loop error before recursing again.  Second, the
fuel threaded through the embedding of the recursion (one unit per distinct
32-bit position, plus two units of maker-note nesting) is never exhausted
for any buffer, order, namespace and 32-bit root position, so the recursion
depth of the Go original is bounded and no input causes infinite
recursion. -/
theorem getIFDTree_cycle_and_terminates (buf : Bytes) (order : ByteOrder)
    (fuel pos : Nat) (space : TagSpace) (seen : List Nat) (maker : MakerData)
    (hpos : pos < 4294967296) :
    (seen.contains pos = true →
      getIFDTreeIter buf order fuel pos space seen maker =
        IterResult.fail (TreeErr.msg loopErrMsg)) ∧
    GetIFDTree buf order pos space ≠ TreeResult.fuelOut := by
  constructor
  · intro hc
    rw [getIFDTreeIter.eq_def, if_pos hc]
  · exact fueled_no_fuelOut (buf.length + 2) (by omega) buf order pos hpos space

/-- C9 witness: at an already-visited concrete position the walk returns the
loop error, and the fueled walk on a concrete buffer is not the
fuel-exhaustion artifact. -/
theorem getIFDTree_cycle_and_terminates_witness :
    (([8] : List Nat).contains 8 = true →
      getIFDTreeIter [0x49, 0x49, 42, 0, 8, 0, 0, 0] ByteOrder.little 5 8 TagSpace.tiff [8]
          ⟨[], [], 0⟩ =
        IterResult.fail (TreeErr.msg loopErrMsg)) ∧
    GetIFDTree [0x49, 0x49, 42, 0, 8, 0, 0, 0] ByteOrder.little 8 TagSpace.tiff ≠
      TreeResult.fuelOut :=
  getIFDTree_cycle_and_terminates [0x49, 0x49, 42, 0, 8, 0, 0, 0] ByteOrder.little 5 8
    TagSpace.tiff [8] ⟨[], [], 0⟩ (by decide)

/-- Helper: byteAt is the mod-256 view of rawAt. -/
theorem byteAt_eq_rawAt (buf : Bytes) (j : Nat) : byteAt buf j = rawAt buf j % 256 := rfl

/-- Helper: setByte leaves raw bytes at other indices unchanged. -/
theorem rawAt_setByte_ne (buf : Bytes) (i v j : Nat) (h : j ≠ i) :
    rawAt (setByte buf i v) j = rawAt buf j := by
  unfold rawAt setByte
  rw [List.getD_eq_getElem?_getD, List.getD_eq_getElem?_getD, List.getElem?_set_ne (by omega)]

/-- Helper: putUint16At leaves raw bytes outside its window unchanged. -/
theorem rawAt_putUint16At_ne (order : ByteOrder) (buf : Bytes) (pos v j : Nat)
    (h : j ≠ pos ∧ j ≠ pos + 1) :
    rawAt (putUint16At order buf pos v) j = rawAt buf j := by
  cases order <;> unfold putUint16At <;>
    rw [rawAt_setByte_ne _ _ _ _ (by omega), rawAt_setByte_ne _ _ _ _ (by omega)]

/-- Helper: putUint32At leaves raw bytes outside its window unchanged. -/
theorem rawAt_putUint32At_ne (order : ByteOrder) (buf : Bytes) (pos v j : Nat)
    (h : j < pos ∨ pos + 4 ≤ j) :
    rawAt (putUint32At order buf pos v) j = rawAt buf j := by
  cases order <;> unfold putUint32At <;>
    rw [rawAt_setByte_ne _ _ _ _ (by omega), rawAt_setByte_ne _ _ _ _ (by omega),
      rawAt_setByte_ne _ _ _ _ (by omega), rawAt_setByte_ne _ _ _ _ (by omega)]

/-- Helper: copyBytes leaves raw bytes below its window unchanged. -/
theorem rawAt_copyBytes_lo (src : Bytes) : ∀ (buf : Bytes) (pos j : Nat), j < pos →
    rawAt (copyBytes buf pos src) j = rawAt buf j := by
  induction src with
  | nil => intro buf pos j _; rfl
  | cons b rest ih =>
      intro buf pos j h
      unfold copyBytes
      rw [ih _ _ _ (by omega), rawAt_setByte_ne _ _ _ _ (by omega)]

/-- Helper: copyBytes leaves raw bytes above its window unchanged. -/
theorem rawAt_copyBytes_hi (src : Bytes) : ∀ (buf : Bytes) (pos j : Nat),
    pos + src.length ≤ j →
    rawAt (copyBytes buf pos src) j = rawAt buf j := by
  induction src with
  | nil => intro buf pos j _; rfl
  | cons b rest ih =>
      intro buf pos j h
      simp only [List.length_cons] at h
      unfold copyBytes
      rw [ih _ _ _ (by omega), rawAt_setByte_ne _ _ _ _ (by omega)]

/-- Helper: the all-zero buffer has genuine bytes. -/
theorem bytesWF_replicate (n : Nat) : bytesWF (List.replicate n 0) := by
  intro b hb
  rw [List.eq_of_mem_replicate hb]
  omega

/-- Helper: setByte keeps raw bytes genuine. -/
theorem bytesWF_setByte (buf : Bytes) (i v : Nat) (h : bytesWF buf) :
    bytesWF (setByte buf i v) := by
  intro b hb
  rcases List.mem_or_eq_of_mem_set hb with hm | rfl
  · exact h b hm
  · exact Nat.mod_lt _ (by omega)

/-- Helper: putUint16At keeps raw bytes genuine. -/
theorem bytesWF_putUint16At (order : ByteOrder) (buf : Bytes) (pos v : Nat)
    (h : bytesWF buf) : bytesWF (putUint16At order buf pos v) := by
  cases order <;> exact bytesWF_setByte _ _ _ (bytesWF_setByte _ _ _ h)

/-- Helper: putUint32At keeps raw bytes genuine. -/
theorem bytesWF_putUint32At (order : ByteOrder) (buf : Bytes) (pos v : Nat)
    (h : bytesWF buf) : bytesWF (putUint32At order buf pos v) := by
  cases order <;>
    exact bytesWF_setByte _ _ _
      (bytesWF_setByte _ _ _ (bytesWF_setByte _ _ _ (bytesWF_setByte _ _ _ h)))

/-- Helper: copyBytes keeps raw bytes genuine. -/
theorem bytesWF_copyBytes (src : Bytes) : ∀ (buf : Bytes) (pos : Nat), bytesWF buf →
    bytesWF (copyBytes buf pos src) := by
  induction src with
  | nil => intro buf pos h; exact h
  | cons b rest ih => intro buf pos h; exact ih _ _ (bytesWF_setByte _ _ _ h)

/-- Helper: two buffers agreeing on a four-byte window give the same 32-bit
read. -/
theorem uint32At_congr (order : ByteOrder) (a b : Bytes) (pos : Nat)
    (h0 : byteAt a pos = byteAt b pos) (h1 : byteAt a (pos + 1) = byteAt b (pos + 1))
    (h2 : byteAt a (pos + 2) = byteAt b (pos + 2))
    (h3 : byteAt a (pos + 3) = byteAt b (pos + 3)) :
    uint32At order a pos = uint32At order b pos := by
  cases order <;> unfold uint32At <;> rw [h0, h1, h2, h3]

/-- Helper: a subslice of a wellformed buffer equals any byte list that
matches it through byteAt. -/
theorem sliceBytes_eq (B : Bytes) (q n : Nat) (data : Bytes) (hb : bytesWF B)
    (hq : q + n ≤ B.length) (hlen : data.length = n) (hd : ∀ x ∈ data, x < 256)
    (hj : ∀ j, j < n → byteAt B (q + j) = byteAt data j) :
    sliceBytes B q n = data := by
  apply List.ext_getElem
  · simp [sliceBytes, List.length_take, List.length_drop]
    omega
  · intro i h1 h2
    have hslice : (sliceBytes B q n)[i] = B.getD (q + i) 0 := by
      have h := h1
      simp only [sliceBytes, List.length_take, List.length_drop, lt_min_iff] at h
      simp only [sliceBytes]
      rw [List.getElem_take, List.getElem_drop]
      rw [List.getD_eq_getElem?_getD, List.getElem?_eq_getElem (by omega)]
      rfl
    have hi : i < n := by
      have := h1
      simp only [sliceBytes, List.length_take, List.length_drop, lt_min_iff] at this
      omega
    have hqi : q + i < B.length := by omega
    have hmem : B.getD (q + i) 0 ∈ B := by
      rw [List.getD_eq_getElem?_getD, List.getElem?_eq_getElem hqi]
      exact List.getElem_mem _
    have hlt : B.getD (q + i) 0 < 256 := hb _ hmem
    have hdlt : data[i] < 256 := hd _ (List.getElem_mem _)
    have hbyte := hj i hi
    simp only [byteAt] at hbyte
    rw [hslice]
    rw [Nat.mod_eq_of_lt hlt] at hbyte
    rw [hbyte, List.getD_eq_getElem?_getD, List.getElem?_eq_getElem h2]
    simp [Nat.mod_eq_of_lt hdlt]

/-- Helper: entriesAt only depends on the bytes of the entry region. -/
theorem entriesAt_congr (o : ByteOrder) (a b : Bytes) :
    ∀ (fields : List Field) (pos : Nat),
    (∀ f ∈ fields, f.size ≤ 4) →
    (∀ j, pos ≤ j → j < pos + 12 * fields.length → byteAt a j = byteAt b j) →
    entriesAt o b pos fields → entriesAt o a pos fields := by
  intro fields
  induction fields with
  | nil => intro pos _ _ _; trivial
  | cons f rest ih =>
      intro pos hsz hj hb
      obtain ⟨h1, h2, h3, h4, h5⟩ := hb
      have hlen : 12 * (f :: rest).length = 12 + 12 * rest.length := by
        simp [List.length_cons]; omega
      refine ⟨?_, ?_, ?_, ?_, ?_⟩
      · rw [uint16At_congr o a b pos (hj _ (by omega) (by omega)) (hj _ (by omega) (by omega))]
        exact h1
      · rw [uint16At_congr o a b (pos + 2) (hj _ (by omega) (by omega))
          (hj _ (by omega) (by omega))]
        exact h2
      · rw [uint32At_congr o a b (pos + 4) (hj _ (by omega) (by omega))
          (hj _ (by omega) (by omega)) (hj _ (by omega) (by omega))
          (hj _ (by omega) (by omega))]
        exact h3
      · intro j hjs
        have hs4 : f.size ≤ 4 := hsz f (by simp)
        rw [hj _ (by omega) (by omega)]
        exact h4 j hjs
      · refine ih (pos + 12) (fun g hg => hsz g (by simp [hg])) ?_ h5
        intro j hj1 hj2
        exact hj j (by omega) (by omega)

/-- Helper: the entry loop of GetIFD reads back a serialized field list
exactly. -/
theorem getFieldsSerial (o : ByteOrder) :
    ∀ (fields : List Field) (B : Bytes) (pos : Nat),
    bytesWF B →
    (∀ f ∈ fields, simpleField f) →
    pos + 12 * fields.length ≤ B.length →
    entriesAt o B pos fields →
    ∃ mp, getFieldsLoop B o fields.length pos = Except.ok (fields, mp) := by
  intro fields
  induction fields with
  | nil => intro B pos _ _ _ _; exact ⟨none, rfl⟩
  | cons f rest ih =>
      intro B pos hwfB hsf hb he
      obtain ⟨h1, h2, h3, h4, h5⟩ := he
      obtain ⟨htag, htyp, -, -, hcount, hsz1, hsz4, hdlen, hdb, -⟩ := hsf f (by simp)
      simp only [List.length_cons] at hb ⊢
      rw [getFieldsLoop]
      simp only [h1, h2, h3, Nat.mod_eq_of_lt htyp]
      have hsize : typeSize f.type * f.count % 4294967296 = f.size := rfl
      rw [hsize, if_neg (by omega)]
      have hdata : sliceBytes B (pos + 8) f.size = f.data :=
        sliceBytes_eq B (pos + 8) f.size f.data hwfB (by omega) hdlen hdb
          (fun j hj => h4 j hj)
      rw [hdata]
      obtain ⟨mp', hih⟩ := ih B (pos + 12) hwfB (fun g hg => hsf g (by simp [hg]))
        (by omega) h5
      rw [hih]
      exact ⟨_, rfl⟩

/-- Helper: writing one 12-byte entry produces a buffer whose entry words
and inline data read back exactly, leaving all raw bytes outside the entry
unchanged. -/
theorem putEntryFacts (o : ByteOrder) (buf : Bytes) (pos datapos : Nat) (f : Field)
    (hwf : bytesWF buf) (htag : f.tag < 65536) (htyp : f.type < 256)
    (hcount : f.count < 4294967296) (hsz1 : 1 ≤ f.size) (hsz4 : f.size ≤ 4)
    (hdlen : f.data.length = f.size) (hb : pos + 12 ≤ buf.length) :
    ∃ w : Bytes,
      putFieldData o
          (putUint32At o (putUint16At o (putUint16At o buf pos f.tag) (pos + 2) f.type)
            (pos + 4) f.count)
          (pos + 8) datapos f.data f.size = some (w, datapos) ∧
      w.length = buf.length ∧ bytesWF w ∧
      (∀ j, j < pos ∨ pos + 12 ≤ j → rawAt w j = rawAt buf j) ∧
      uint16At o w pos = f.tag ∧ uint16At o w (pos + 2) = f.type ∧
      uint32At o w (pos + 4) = f.count ∧
      (∀ j, j < f.size → byteAt w (pos + 8 + j) = byteAt f.data j) := by
  set buf2 := putUint16At o buf pos f.tag with hbuf2
  set buf3 := putUint16At o buf2 (pos + 2) f.type with hbuf3
  set buf4 := putUint32At o buf3 (pos + 4) f.count with hbuf4
  have htake : f.data.take f.size = f.data := List.take_of_length_le (le_of_eq hdlen)
  have hlen2 : buf2.length = buf.length := length_putUint16At o buf pos f.tag
  have hlen3 : buf3.length = buf.length := by rw [hbuf3, length_putUint16At, hlen2]
  have hlen4 : buf4.length = buf.length := by rw [hbuf4, length_putUint32At, hlen3]
  refine ⟨copyBytes (copyBytes buf4 (pos + 8) [0, 0, 0, 0]) (pos + 8) (f.data.take f.size),
    ?_, ?_, ?_, ?_, ?_, ?_, ?_, ?_⟩
  · rw [putFieldData, if_pos hsz4, if_neg (by omega)]
  · rw [length_copyBytes, length_copyBytes, hlen4]
  · rw [htake]
    exact bytesWF_copyBytes _ _ _ (bytesWF_copyBytes _ _ _ (bytesWF_putUint32At _ _ _ _
      (bytesWF_putUint16At _ _ _ _ (bytesWF_putUint16At _ _ _ _ hwf))))
  · intro j hj
    have htl : (f.data.take f.size).length = f.size := by rw [htake, hdlen]
    rcases hj with hj | hj
    · rw [rawAt_copyBytes_lo _ _ _ _ (by omega), rawAt_copyBytes_lo _ _ _ _ (by omega),
        hbuf4, rawAt_putUint32At_ne _ _ _ _ _ (by omega), hbuf3,
        rawAt_putUint16At_ne _ _ _ _ _ (by omega), hbuf2,
        rawAt_putUint16At_ne _ _ _ _ _ (by omega)]
    · rw [rawAt_copyBytes_hi _ _ _ _ (by rw [htl]; omega),
        rawAt_copyBytes_hi _ _ _ _
          (by simp only [List.length_cons, List.length_nil]; omega),
        hbuf4, rawAt_putUint32At_ne _ _ _ _ _ (by omega), hbuf3,
        rawAt_putUint16At_ne _ _ _ _ _ (by omega), hbuf2,
        rawAt_putUint16At_ne _ _ _ _ _ (by omega)]
  · have e0 : ∀ i, i < 2 → byteAt (copyBytes (copyBytes buf4 (pos + 8) [0, 0, 0, 0])
        (pos + 8) (f.data.take f.size)) (pos + i) = byteAt buf2 (pos + i) := by
      intro i hi
      rw [byteAt_copyBytes_lo _ _ _ _ (by omega), byteAt_copyBytes_lo _ _ _ _ (by omega),
        hbuf4, byteAt_putUint32At_ne _ _ _ _ _ (by omega), hbuf3,
        byteAt_putUint16At_ne _ _ _ _ _ (by omega)]
    have e0a := e0 0 (by omega)
    have e0b := e0 1 (by omega)
    simp only [Nat.add_zero] at e0a
    rw [uint16At_congr o _ buf2 pos e0a e0b, hbuf2,
      uint16At_putUint16At _ _ _ _ (by omega), Nat.mod_eq_of_lt htag]
  · have e0 : ∀ i, i < 2 → byteAt (copyBytes (copyBytes buf4 (pos + 8) [0, 0, 0, 0])
        (pos + 8) (f.data.take f.size)) (pos + 2 + i) = byteAt buf3 (pos + 2 + i) := by
      intro i hi
      rw [byteAt_copyBytes_lo _ _ _ _ (by omega), byteAt_copyBytes_lo _ _ _ _ (by omega),
        hbuf4, byteAt_putUint32At_ne _ _ _ _ _ (by omega)]
    have e0a := e0 0 (by omega)
    have e0b := e0 1 (by omega)
    simp only [Nat.add_zero] at e0a
    have e0b2 : byteAt (copyBytes (copyBytes buf4 (pos + 8) [0, 0, 0, 0])
        (pos + 8) (f.data.take f.size)) (pos + 2 + 1) = byteAt buf3 (pos + 2 + 1) := e0b
    rw [uint16At_congr o _ buf3 (pos + 2) e0a e0b2, hbuf3,
      uint16At_putUint16At _ _ _ _ (by rw [hlen2]; omega),
      Nat.mod_eq_of_lt (show f.type < 65536 by omega)]
  · have e0 : ∀ i, i < 4 → byteAt (copyBytes (copyBytes buf4 (pos + 8) [0, 0, 0, 0])
        (pos + 8) (f.data.take f.size)) (pos + 4 + i) = byteAt buf4 (pos + 4 + i) := by
      intro i hi
      rw [byteAt_copyBytes_lo _ _ _ _ (by omega), byteAt_copyBytes_lo _ _ _ _ (by omega)]
    have e0a := e0 0 (by omega)
    have e0b := e0 1 (by omega)
    have e0c := e0 2 (by omega)
    have e0d := e0 3 (by omega)
    simp only [Nat.add_zero] at e0a
    rw [uint32At_congr o _ buf4 (pos + 4) e0a e0b e0c e0d, hbuf4,
      uint32At_putUint32At _ _ _ _ (by rw [hlen3]; omega), Nat.mod_eq_of_lt hcount]
  · intro j hj
    have htl : (f.data.take f.size).length = f.size := by rw [htake, hdlen]
    rw [byteAt_copyBytes_in _ _ _ _ (by omega) (by rw [htl]; omega)
      (by rw [length_copyBytes, hlen4]; omega)]
    rw [htake]
    have hidx : pos + 8 + j - (pos + 8) = j := by omega
    rw [hidx]

/-- Helper: the entry loop of IFD_T.Put with no sub-IFDs and no image data
serializes a sorted simple field list, writing only the entry region. -/
theorem putFieldsSerial (o : ByteOrder) :
    ∀ (fields : List Field) (buf : Bytes) (pos datapos lastTag : Nat),
    bytesWF buf →
    (∀ f ∈ fields, simpleField f) →
    List.Pairwise (fun a b : Field => a.tag ≤ b.tag) fields →
    (∀ f ∈ fields, lastTag ≤ f.tag) →
    pos + 12 * fields.length ≤ buf.length →
    ∃ buf', putFieldsLoop o [] [] fields buf pos datapos lastTag =
        some (buf', pos + 12 * fields.length, datapos) ∧
      buf'.length = buf.length ∧ bytesWF buf' ∧
      (∀ j, j < pos ∨ pos + 12 * fields.length ≤ j → rawAt buf' j = rawAt buf j) ∧
      entriesAt o buf' pos fields := by
  intro fields
  induction fields with
  | nil =>
      intro buf pos datapos lastTag hwf _ _ _ _
      exact ⟨buf, by simp [putFieldsLoop], rfl, hwf, fun j _ => rfl, trivial⟩
  | cons f rest ih =>
      intro buf pos datapos lastTag hwf hsf hpair hlast hb
      obtain ⟨htag, htyp, -, -, hcount, hsz1, hsz4, hdlen, hdb, -⟩ := hsf f (by simp)
      simp only [List.length_cons] at hb ⊢
      obtain ⟨w, hwEq, hwLen, hwWF, hwRaw, hw1, hw2, hw3, hw4⟩ :=
        putEntryFacts o buf pos datapos f hwf htag htyp hcount hsz1 hsz4 hdlen (by omega)
      obtain ⟨buf', hloop, hlen', hwf', hloc', hent'⟩ :=
        ih w (pos + 12) datapos f.tag hwWF (fun g hg => hsf g (by simp [hg]))
          (List.Pairwise.of_cons hpair)
          (fun g hg => (List.pairwise_cons.mp hpair).1 g hg)
          (by rw [hwLen]; omega)
      have hto : ∀ j, j < pos + 12 → byteAt buf' j = byteAt w j := fun j hj => by
        rw [byteAt_eq_rawAt, byteAt_eq_rawAt, hloc' j (Or.inl hj)]
      refine ⟨buf', ?_, ?_, hwf', ?_, ?_⟩
      · rw [putFieldsLoop, if_neg (by have := hlast f (by simp); omega)]
        simp only [List.filter_nil, ne_eq, not_true_eq_false, false_and, if_false,
          lookupLast, List.foldl_nil]
        rw [hwEq]
        simp only []
        rw [hloop]
        have harith : pos + 12 + 12 * rest.length = pos + 12 * (rest.length + 1) := by omega
        rw [harith]
      · rw [hlen', hwLen]
      · intro j hj
        rcases hj with hj | hj
        · rw [hloc' j (Or.inl (by omega)), hwRaw j (Or.inl hj)]
        · rw [hloc' j (Or.inr (by omega)), hwRaw j (Or.inr (by omega))]
      · refine ⟨?_, ?_, ?_, ?_, hent'⟩
        · rw [uint16At_congr o buf' w pos (hto _ (by omega)) (hto _ (by omega))]
          exact hw1
        · rw [uint16At_congr o buf' w (pos + 2) (hto _ (by omega)) (hto _ (by omega))]
          exact hw2
        · rw [uint32At_congr o buf' w (pos + 4) (hto _ (by omega)) (hto _ (by omega))
            (hto _ (by omega)) (hto _ (by omega))]
          exact hw3
        · intro j hj
          rw [hto _ (by omega)]
          exact hw4 j hj

/-- Helper: searching an IFD for no tags finds no fields. -/
theorem findFields_nil (ifd : IFD_T) : ifd.FindFields [] = [] := by
  unfold IFD_T.FindFields
  induction ifd.fields with
  | nil => rfl
  | cons a l ih => simp [ih]

/-- Helper: with no image data, putImageData writes nothing and reports no
error. -/
theorem putImageData_empty (buf : Bytes) (o o2 : ByteOrder) (fields : List Field)
    (pos : Nat) :
    putImageData buf ⟨o2, fields, []⟩ pos o = some (buf, pos, [], none) := by
  unfold putImageData
  simp [findFields_nil, putImageDataLoop]

/-- Helper: IFD_T.Put with no sub-IFDs, no image data and a zero next
pointer serializes the table exactly, touching only the table region. -/
theorem put_simple (o : ByteOrder) (fields : List Field) (buf : Bytes) (pos : Nat)
    (hwf : bytesWF buf) (hsf : ∀ f ∈ fields, simpleField f)
    (hpair : List.Pairwise (fun a b : Field => a.tag ≤ b.tag) fields)
    (hn : fields.length < 65536)
    (halign : pos % 2 = 0) (hb : pos + (2 + fields.length * 12 + 4) ≤ buf.length) :
    ∃ B, IFD_T.Put ⟨o, fields, []⟩ buf pos [] 0 =
        some (B, pos + (2 + fields.length * 12 + 4)) ∧
      B.length = buf.length ∧ bytesWF B ∧
      (∀ j, j < pos ∨ pos + (2 + fields.length * 12 + 4) ≤ j →
        rawAt B j = rawAt buf j) ∧
      uint16At o B pos = fields.length ∧
      entriesAt o B (pos + 2) fields ∧
      uint32At o B (pos + 2 + 12 * fields.length) = 0 := by
  obtain ⟨B1, hloopEq, hlen1, hwf1, hloc1, hent1⟩ :=
    putFieldsSerial o fields (putUint16At o buf pos fields.length) (pos + 2)
      (pos + (2 + fields.length * 12 + 4)) 0
      (bytesWF_putUint16At _ _ _ _ hwf) hsf hpair (fun f _ => Nat.zero_le _)
      (by rw [length_putUint16At]; omega)
  have hdvd : pos / 2 * 2 = pos := Nat.div_mul_cancel (Nat.dvd_of_mod_eq_zero halign)
  have hlenw : (putUint16At o buf pos fields.length).length = buf.length :=
    length_putUint16At o buf pos fields.length
  have hlenB1 : B1.length = buf.length := by rw [hlen1, hlenw]
  refine ⟨putUint32At o B1 (pos + 2 + 12 * fields.length) 0, ?_, ?_, ?_, ?_, ?_, ?_, ?_⟩
  · unfold IFD_T.Put
    dsimp only [IFD_T.size]
    rw [if_neg (not_not_intro hdvd)]
    rw [putImageData_empty buf o o fields (pos + (2 + fields.length * 12 + 4))]
    dsimp only
    rw [hloopEq]
  · rw [length_putUint32At, hlenB1]
  · exact bytesWF_putUint32At _ _ _ _ hwf1
  · intro j hj
    have h1 : rawAt (putUint32At o B1 (pos + 2 + 12 * fields.length) 0) j = rawAt B1 j :=
      rawAt_putUint32At_ne _ _ _ _ _ (by omega)
    have h2 : rawAt B1 j = rawAt (putUint16At o buf pos fields.length) j :=
      hloc1 j (by omega)
    have h3 : rawAt (putUint16At o buf pos fields.length) j = rawAt buf j :=
      rawAt_putUint16At_ne _ _ _ _ _ (by omega)
    rw [h1, h2, h3]
  · have e0 : ∀ i, i < 2 → byteAt (putUint32At o B1 (pos + 2 + 12 * fields.length) 0)
        (pos + i) = byteAt (putUint16At o buf pos fields.length) (pos + i) := by
      intro i hi
      rw [byteAt_putUint32At_ne _ _ _ _ _ (by omega), byteAt_eq_rawAt, byteAt_eq_rawAt,
        hloc1 _ (by omega)]
    have e0a := e0 0 (by omega)
    have e0b := e0 1 (by omega)
    simp only [Nat.add_zero] at e0a
    rw [uint16At_congr o _ (putUint16At o buf pos fields.length) pos e0a e0b,
      uint16At_putUint16At _ _ _ _ (by omega), Nat.mod_eq_of_lt hn]
  · refine entriesAt_congr o _ B1 fields (pos + 2)
      (fun f hf => ((hsf f hf).2.2.2.2.2.2.1)) ?_ hent1
    intro j h1 h2
    rw [byteAt_putUint32At_ne _ _ _ _ _ (by omega)]
  · rw [uint32At_putUint32At _ _ _ _ (by rw [hlenB1]; omega)]

/-- Helper: a tag that no field carries is never found by
lastFieldWithTag. -/
theorem lastFieldWithTag_none (fields : List Field) (t : Nat)
    (h : ∀ f ∈ fields, f.tag ≠ t) : lastFieldWithTag fields t = none := by
  unfold lastFieldWithTag
  have hgen : ∀ (fs : List Field) (acc : Option Field), (∀ f ∈ fs, f.tag ≠ t) →
      (fs.foldl (fun acc f => if f.tag = t then some f else acc) acc = acc) := by
    intro fs
    induction fs with
    | nil => intro acc _; rfl
    | cons f rest ih =>
        intro acc hall
        simp only [List.foldl_cons]
        rw [if_neg (hall f (by simp))]
        exact ih acc (fun g hg => hall g (by simp [hg]))
  exact hgen fields none h

/-- Helper: getImageData over specs that matched no offset field returns no
image data and no error. -/
theorem getImageData_none (buf : Bytes) (o : ByteOrder) :
    ∀ l : List ImageDataFields, (∀ e ∈ l, e.offsetField = none) →
    getImageData buf o l = some (Except.ok []) := by
  intro l
  induction l with
  | nil => intro _; rfl
  | cons e rest ih =>
      intro h
      unfold getImageData
      rw [h e (by simp)]
      exact ih (fun g hg => h g (by simp [hg]))

/-- Helper: every image-data offset tag of TIFF space is a link tag. -/
theorem offsetTags_link : ∀ s ∈ TIFFImageData, s.offsetTag ∈ tiffLinkTags := by decide

/-- Helper: GetIFD reads back a serialized table of simple fields as an IFD
with those exact fields, no image data, no next link and no error. -/
theorem getIFD_simple (o : ByteOrder) (B : Bytes) (pos : Nat) (fields : List Field)
    (hwf : bytesWF B) (hsf : ∀ f ∈ fields, simpleField f)
    (hne : fields ≠ []) (hn : fields.length < 65536)
    (hcnt : uint16At o B pos = fields.length)
    (hent : entriesAt o B (pos + 2) fields)
    (hnextw : uint32At o B (pos + 2 + 12 * fields.length) = 0)
    (hb : pos + 2 + 12 * fields.length + 4 ≤ B.length)
    (hlen32 : B.length < 4294967296) :
    ∃ mp, GetIFD B o pos TIFFImageData = some ⟨⟨o, fields, []⟩, 0, none, mp⟩ := by
  obtain ⟨mp, hloop⟩ := getFieldsSerial o fields B (pos + 2) hwf hsf (by omega) hent
  have hadd2 : add32 pos 2 = pos + 2 := by
    unfold add32
    exact Nat.mod_eq_of_lt (by omega)
  have htbl : add32 pos (2 + fields.length * 12 + 4) = pos + (2 + fields.length * 12 + 4) := by
    unfold add32
    exact Nat.mod_eq_of_lt (by omega)
  unfold GetIFD
  dsimp only
  rw [hadd2, if_neg (by omega), hcnt,
    if_neg (by simpa using fun hcon => hne (List.length_eq_zero.mp hcon)), htbl,
    if_neg (by omega), hloop]
  dsimp only
  rw [getImageData_none]
  · rw [hnextw]
    exact ⟨_, rfl⟩
  · intro e he
    rcases List.mem_map.mp he with ⟨s, hs, rfl⟩
    dsimp only
    refine lastFieldWithTag_none fields s.offsetTag ?_
    intro f hf
    have hlink := (hsf f hf).2.2.2.2.2.2.2.2.2
    intro hcon
    exact hlink (by rw [hcon]; exact offsetTags_link s hs)

/-- Helper: Field.ASCII succeeds on nonempty data. -/
theorem ascii_of_ne_nil (f : Field) (h : f.data ≠ []) : ∃ s, f.ASCII = some s := by
  unfold Field.ASCII
  rw [if_neg (by simpa using h)]
  by_cases hz : byteAt f.data (f.data.length - 1) = 0
  · rw [if_pos hz]; exact ⟨_, rfl⟩
  · rw [if_neg hz]; exact ⟨_, rfl⟩

/-- Helper: a simple field is not an IFD pointer in TIFF space. -/
theorem isIFD_simple_false (f : Field) (h : simpleField f) : f.IsIFD .tiff = false := by
  obtain ⟨-, -, -, h13, -, -, -, -, -, hlink⟩ := h
  unfold Field.IsIFD
  rw [if_neg h13]
  have h1 : f.tag ≠ SubIFDs := fun hc => hlink (by rw [hc]; decide)
  have h2 : f.tag ≠ ExifIFD := fun hc => hlink (by rw [hc]; decide)
  have h3 : f.tag ≠ GPSIFD := fun hc => hlink (by rw [hc]; decide)
  simp [h1, h2, h3]

/-- Helper: the TIFF-space maker bookkeeping is total on fields with data
and never changes the recorded maker note position. -/
theorem makerUpdate_tiff_total (f : Field) (mp : Nat) (maker : MakerData)
    (h : f.data ≠ []) :
    ∃ m2, makerUpdate .tiff f mp maker = some m2 ∧ m2.position = maker.position := by
  obtain ⟨s, hs⟩ := ascii_of_ne_nil f h
  simp only [makerUpdate]
  by_cases h1 : f.tag = Make
  · rw [if_pos h1, hs]
    exact ⟨_, rfl, rfl⟩
  · rw [if_neg h1]
    by_cases h2 : f.tag = Model
    · rw [if_pos h2, hs]
      exact ⟨_, rfl, rfl⟩
    · rw [if_neg h2]
      exact ⟨maker, rfl, rfl⟩

/-- Helper: the field loop over plain data fields in TIFF space finds no
sub-IFDs, keeps the visited set, and never moves the maker note position. -/
theorem tiffSubsLoop (buf : Bytes) (o : ByteOrder) :
    ∀ (fields : List Field), (∀ f ∈ fields, f.IsIFD .tiff = false ∧ f.data ≠ []) →
    ∀ (fuel mp : Nat) (seen : List Nat) (maker : MakerData),
    ∃ maker2, getSubIFDsLoop buf o fuel .tiff mp fields seen maker = .ok [] seen maker2 ∧
      maker2.position = maker.position := by
  intro fields
  induction fields with
  | nil =>
      intro _ fuel mp seen maker
      exact ⟨maker, by rw [getSubIFDsLoop], rfl⟩
  | cons f rest ih =>
      intro hf fuel mp seen maker
      obtain ⟨hifd, hdata⟩ := hf f (by simp)
      obtain ⟨m2, hupd, hpos⟩ := makerUpdate_tiff_total f mp maker hdata
      obtain ⟨maker2, hrec, hp2⟩ := ih (fun g hg => hf g (by simp [hg])) fuel mp seen m2
      refine ⟨maker2, ?_, by rw [hp2, hpos]⟩
      rw [getSubIFDsLoop, if_neg (by simp [hifd]), hupd]
      exact hrec

/-- Helper: one step of the tree walk on an IFD whose fields are plain data
fields and whose next pointer is zero yields a leaf node. -/
theorem iter_simple (buf : Bytes) (o : ByteOrder) (f1 pos : Nat) (seen : List Nat)
    (maker : MakerData) (r : GetIFDResult)
    (hc : seen.contains pos = false)
    (hg : GetIFD buf o pos TIFFImageData = some r)
    (herr : r.err = none) (hnext : r.next = 0)
    (hf : ∀ f ∈ r.ifd.fields, f.IsIFD .tiff = false ∧ f.data ≠ []) :
    ∃ maker2, getIFDTreeIter buf o (f1 + 1) pos .tiff seen maker =
        IterResult.ok (.mk r.ifd (.tiffRec .tiff) [] none) (pos :: seen) maker2 ∧
      maker2.position = maker.position := by
  obtain ⟨maker2, hsubs, hp⟩ :=
    tiffSubsLoop buf o r.ifd.fields hf f1 r.makerPos (pos :: seen) maker
  refine ⟨maker2, ?_, hp⟩
  rw [getIFDTreeIter.eq_def, if_neg (by rw [hc]; simp)]
  dsimp only
  rw [if_pos rfl, hg]
  dsimp only
  rw [herr]
  dsimp only
  rw [hsubs]
  dsimp only
  rw [hnext]
  simp

/-- Helper: the whole tree walk on a root IFD of plain data fields with a
zero next pointer returns the leaf tree with no error and never enters the
maker note phase. -/
theorem getIFDTree_simple (buf : Bytes) (o : ByteOrder) (pos : Nat) (r : GetIFDResult)
    (hg : GetIFD buf o pos TIFFImageData = some r)
    (herr : r.err = none) (hnext : r.next = 0)
    (hf : ∀ f ∈ r.ifd.fields, f.IsIFD .tiff = false ∧ f.data ≠ []) :
    GetIFDTree buf o pos .tiff =
      TreeResult.res (some (.mk r.ifd (.tiffRec .tiff) [] none)) none := by
  unfold GetIFDTree
  rw [getIFDTreeFueled]
  have hfu : ifdTreeIterFuel = 4294967295 + 1 := rfl
  obtain ⟨maker2, hiter, hp⟩ :=
    iter_simple buf o 4294967295 pos [] ⟨[], [], 0⟩ r rfl hg herr hnext hf
  rw [hfu, hiter]
  dsimp only
  have hp0 : maker2.position = 0 := hp
  rw [if_neg (by simp [hp0])]

/-- Helper: aligning an even position changes nothing. -/
theorem Align_even (n : Nat) (h : n % 2 = 0) : Align n = n := by
  unfold Align
  rw [if_neg (not_not_intro (Nat.div_mul_cancel (Nat.dvd_of_mod_eq_zero h)))]

/-- Helper: a leaf node of inline fields without image data serializes to
just its table size. -/
theorem sizeTIFF_simple (o : ByteOrder) (s : TagSpace) (fields : List Field)
    (h : ∀ f ∈ fields, f.size ≤ 4) :
    IFDNode.sizeTIFF (.mk ⟨o, fields, []⟩ (.tiffRec s) [] none) =
      2 + fields.length * 12 + 4 := by
  unfold IFDNode.sizeTIFF
  dsimp only [IFDNode.ifd, IFDNode.subIFDs, IFD_T.size]
  have hfold : ∀ (fs : List Field) (acc : Nat), (∀ f ∈ fs, f.size ≤ 4) →
      List.foldl (fun acc f =>
        if ([] : List (Nat × IFDNode)).any (fun s => s.1 = f.tag) ∧ typeSize f.type = 1
        then acc
        else if 4 < f.size then acc + f.size else acc) acc fs = acc := by
    intro fs
    induction fs with
    | nil => intro acc _; rfl
    | cons f rest ih =>
        intro acc hh
        simp only [List.foldl_cons]
        rw [if_neg (by simp), if_neg (by have := hh f (by simp); omega)]
        exact ih acc (fun g hg => hh g (by simp [hg]))
  rw [hfold fields 0 h]
  simp [List.foldl_nil]

/-- Helper: the tree size of a leaf node of inline fields is its table
size. -/
theorem treeSize_simple (o : ByteOrder) (fields : List Field)
    (h : ∀ f ∈ fields, f.size ≤ 4) :
    IFDNode.TreeSize (.mk ⟨o, fields, []⟩ (.tiffRec .tiff) [] none) =
      2 + fields.length * 12 + 4 := by
  rw [IFDNode.TreeSize]
  dsimp only [treeSizeSubs, IFDNode.size, IFDNode.spaceRec]
  rw [sizeTIFF_simple o .tiff fields h, Align_even _ (by omega)]

/-- Helper: serializing a leaf node is exactly one IFD_T.Put at its
position. -/
theorem putTree_single (ifd : IFD_T) (s : TagSpace) (buf : Bytes) (pos : Nat) :
    IFDNode.PutIFDTree (.mk ifd (.tiffRec s) [] none) buf pos =
      match ifd.Put buf pos [] 0 with
      | none => none
      | some (b, _) =>
          some (b, pos + IFDNode.sizeTIFF (.mk ifd (.tiffRec s) [] none)) := by
  rw [IFDNode.PutIFDTree]
  dsimp only [IFDNode.spaceRec]
  rw [IFDNode.putIFDTreeTIFF]
  rw [putTreeSubs]
  dsimp only
  rw [putTreeNext]

/-- Helper: the per-field fix leaves a simple field untouched. -/
theorem fixField_simple (o : ByteOrder) (f : Field) (h : simpleField f) :
    fixField o TIFFImageData f = some f := by
  obtain ⟨-, -, htyp2, -, -, -, -, -, -, hlink⟩ := h
  unfold fixField
  by_cases h3 : f.type = 3
  · rw [if_pos h3, if_neg ?_]
    intro hc
    simp only [List.any_eq_true, decide_eq_true_eq] at hc
    obtain ⟨s, hs, hso⟩ := hc
    exact hlink (by rw [← hso]; exact offsetTags_link s hs)
  · rw [if_neg h3, if_neg htyp2]

/-- Helper: the fix loop leaves a list of simple fields untouched. -/
theorem fixFieldsLoop_simple (o : ByteOrder) :
    ∀ (fs : List Field), (∀ f ∈ fs, simpleField f) →
    fixFieldsLoop o TIFFImageData fs = some fs := by
  intro fs
  induction fs with
  | nil => intro _; rfl
  | cons f rest ih =>
      intro h
      unfold fixFieldsLoop
      rw [fixField_simple o f (h f (by simp)), ih (fun g hg => h g (by simp [hg]))]

/-- Helper: Fix on a leaf TIFF node of simple fields just sorts the field
list. -/
theorem fix_node_simple (o : ByteOrder) (fs : List Field)
    (h : ∀ f ∈ fs, simpleField f) :
    IFDNode.Fix (.mk ⟨o, fs, []⟩ (.tiffRec .tiff) [] none) =
      some (.mk ⟨o, sortFields fs, []⟩ (.tiffRec .tiff) [] none) := by
  have hperm : (sortFields fs).Perm fs := List.perm_insertionSort _ fs
  have hsorted : ∀ f ∈ sortFields fs, simpleField f := fun f hf => h f (hperm.mem_iff.mp hf)
  rw [IFDNode.Fix]
  dsimp only [SpaceRec.GetSpace]
  rw [if_pos rfl]
  have hifdfix : IFD_T.Fix ⟨o, fs, []⟩ TIFFImageData = some ⟨o, sortFields fs, []⟩ := by
    unfold IFD_T.Fix
    dsimp only
    rw [fixFieldsLoop_simple o (sortFields fs) hsorted]
  rw [hifdfix]
  rw [fixSubs]
  dsimp only
  rw [fixNext]

/-- C1 amended: for a single TIFF IFD without sub-IFD links, next chain or
image data, whose fields are plain inline data fields (simpleField), Fix
sorts the fields, PutIFDTree into a fresh buffer of the canonical size
succeeds, and re-parsing the serialized buffer returns exactly the Fix-ed
tree, with the fields in ascending tag order.  (For trees with sub-IFD
pointer fields the round trip rewrites the pointer data, see the
counterexample.) -/
theorem putIFDTree_roundtrip (o : ByteOrder) (fs : List Field)
    (hne : fs ≠ []) (hn : fs.length < 65536)
    (hwf : ∀ f ∈ fs, simpleField f) :
    ∃ B2 e,
      IFDNode.Fix (.mk ⟨o, fs, []⟩ (.tiffRec .tiff) [] none) =
        some (.mk ⟨o, sortFields fs, []⟩ (.tiffRec .tiff) [] none) ∧
      IFDNode.PutIFDTree (.mk ⟨o, sortFields fs, []⟩ (.tiffRec .tiff) [] none)
        (List.replicate
          (8 + IFDNode.TreeSize (.mk ⟨o, sortFields fs, []⟩ (.tiffRec .tiff) [] none)) 0)
        8 = some (B2, e) ∧
      GetIFDTree B2 o 8 .tiff =
        TreeResult.res (some (.mk ⟨o, sortFields fs, []⟩ (.tiffRec .tiff) [] none)) none ∧
      List.Pairwise (fun a b : Field => a.tag ≤ b.tag) (sortFields fs) := by
  have hperm : (sortFields fs).Perm fs := List.perm_insertionSort _ fs
  have hwfs : ∀ f ∈ sortFields fs, simpleField f := fun f hf => hwf f (hperm.mem_iff.mp hf)
  have hlen : (sortFields fs).length = fs.length := hperm.length_eq
  have hnes : sortFields fs ≠ [] := by
    intro hc
    exact hne (List.length_eq_zero.mp (by rw [← hlen, hc]; rfl))
  have hpair : List.Pairwise (fun a b : Field => a.tag ≤ b.tag) (sortFields fs) :=
    List.sorted_insertionSort (fun a b : Field => a.tag ≤ b.tag) fs
  have hsz4 : ∀ f ∈ sortFields fs, f.size ≤ 4 := fun f hf => (hwfs f hf).2.2.2.2.2.2.1
  have hts : IFDNode.TreeSize (.mk ⟨o, sortFields fs, []⟩ (.tiffRec .tiff) [] none) =
      2 + (sortFields fs).length * 12 + 4 := treeSize_simple o (sortFields fs) hsz4
  have hlen0 : (List.replicate
      (8 + IFDNode.TreeSize (.mk ⟨o, sortFields fs, []⟩ (.tiffRec .tiff) [] none)) 0).length =
      8 + (2 + (sortFields fs).length * 12 + 4) := by
    rw [List.length_replicate, hts]
  obtain ⟨B, hputEq, hlenB, hwfB, hlocB, hcntB, hentB, hnextB⟩ :=
    put_simple o (sortFields fs)
      (List.replicate
        (8 + IFDNode.TreeSize (.mk ⟨o, sortFields fs, []⟩ (.tiffRec .tiff) [] none)) 0)
      8 (bytesWF_replicate _) hwfs hpair (by omega) (by omega) (by omega)
  refine ⟨B, 8 + (2 + (sortFields fs).length * 12 + 4),
    fix_node_simple o fs hwf, ?_, ?_, hpair⟩
  · rw [putTree_single, hputEq]
    dsimp only
    rw [sizeTIFF_simple o .tiff (sortFields fs) hsz4]
  · obtain ⟨mp, hgifd⟩ := getIFD_simple o B 8 (sortFields fs) hwfB hwfs hnes (by omega)
      hcntB hentB hnextB (by omega) (by omega)
    refine getIFDTree_simple B o 8 _ hgifd rfl rfl ?_
    intro f hf
    obtain ⟨-, -, -, -, -, hsz1, -, hdlen, -, -⟩ := hwfs f hf
    refine ⟨isIFD_simple_false f (hwfs f hf), ?_⟩
    intro hc
    rw [hc] at hdlen
    simp at hdlen
    omega

/-- C1 witness: the amended round trip at a concrete one-field IFD (a SHORT
Compression field). -/
theorem putIFDTree_roundtrip_witness :
    ∃ B2 e,
      IFDNode.Fix (.mk ⟨ByteOrder.little, [⟨259, 3, 1, [1, 0]⟩], []⟩
          (.tiffRec .tiff) [] none) =
        some (.mk ⟨ByteOrder.little, sortFields [⟨259, 3, 1, [1, 0]⟩], []⟩
          (.tiffRec .tiff) [] none) ∧
      IFDNode.PutIFDTree (.mk ⟨ByteOrder.little, sortFields [⟨259, 3, 1, [1, 0]⟩], []⟩
          (.tiffRec .tiff) [] none)
        (List.replicate
          (8 + IFDNode.TreeSize (.mk ⟨ByteOrder.little, sortFields [⟨259, 3, 1, [1, 0]⟩], []⟩
            (.tiffRec .tiff) [] none)) 0)
        8 = some (B2, e) ∧
      GetIFDTree B2 ByteOrder.little 8 .tiff =
        TreeResult.res
          (some (.mk ⟨ByteOrder.little, sortFields [⟨259, 3, 1, [1, 0]⟩], []⟩
            (.tiffRec .tiff) [] none)) none ∧
      List.Pairwise (fun a b : Field => a.tag ≤ b.tag)
        (sortFields [⟨259, 3, 1, [1, 0]⟩]) :=
  putIFDTree_roundtrip ByteOrder.little [⟨259, 3, 1, [1, 0]⟩] (by decide) (by decide)
    (by intro f hf
        simp only [List.mem_singleton] at hf
        subst hf
        unfold simpleField
        decide)

/-- Helper: serializing a node with exactly one leaf sub-IFD and no next
chain writes the child after the parent table and then the parent. -/
theorem putTree_oneSub (ifd cifd : IFD_T) (s cs : TagSpace) (tg : Nat) (buf : Bytes)
    (pos : Nat) :
    IFDNode.PutIFDTree
        (.mk ifd (.tiffRec s) [(tg, .mk cifd (.tiffRec cs) [] none)] none) buf pos =
      (let n2 := Align (pos + IFDNode.sizeTIFF
          (.mk ifd (.tiffRec s) [(tg, .mk cifd (.tiffRec cs) [] none)] none))
       let csz := IFDNode.sizeTIFF (.mk cifd (.tiffRec cs) [] none)
       match cifd.Put buf n2 [] 0 with
       | none => none
       | some (b2, _) =>
           match ifd.Put b2 pos [⟨tg, n2, n2 + csz - n2⟩] 0 with
           | none => none
           | some (b4, _) => some (b4, n2 + csz)) := by
  rw [IFDNode.PutIFDTree]
  dsimp only [IFDNode.spaceRec]
  rw [IFDNode.putIFDTreeTIFF]
  rw [putTreeSubs, putTree_single]
  cases hput : cifd.Put buf
      (Align (pos + IFDNode.sizeTIFF
        (.mk ifd (.tiffRec s) [(tg, .mk cifd (.tiffRec cs) [] none)] none))) [] 0 with
  | none => rfl
  | some p =>
      obtain ⟨b2, d2⟩ := p
      dsimp only
      rw [putTreeSubs]
      dsimp only
      rw [putTreeNext]

/-- Helper: the tree walk on a root with a single sub-IFD pointer field
referring to a leaf IFD of plain fields returns the two-node tree. -/
theorem getIFDTree_oneSub (buf : Bytes) (o : ByteOrder) (r rc : GetIFDResult) (f : Field)
    (cpos : Nat)
    (hg : GetIFD buf o 8 TIFFImageData = some r) (herr : r.err = none)
    (hnext : r.next = 0)
    (hfs : r.ifd.fields = [f]) (hifd : f.IsIFD .tiff = true) (hcount : f.count = 1)
    (hlong : f.LongP 0 o = some cpos) (hsub : TagSpace.SubSpace .tiff f.tag = .tiff)
    (hcpos : (8 : Nat) ≠ cpos)
    (hgc : GetIFD buf o cpos TIFFImageData = some rc) (herrc : rc.err = none)
    (hnextc : rc.next = 0)
    (hfc : ∀ g ∈ rc.ifd.fields, g.IsIFD .tiff = false ∧ g.data ≠ []) :
    GetIFDTree buf o 8 .tiff =
      TreeResult.res
        (some (.mk r.ifd (.tiffRec .tiff)
          [(f.tag, .mk rc.ifd (.tiffRec .tiff) [] none)] none)) none := by
  have hcont : ([8] : List Nat).contains cpos = false := by
    refine Bool.eq_false_iff.mpr ?_
    intro hc
    have := (contains_eq_mem [8] cpos).mp hc
    simp at this
    exact hcpos (by omega)
  obtain ⟨maker2, hiterc, hpc⟩ :=
    iter_simple buf o 4294967294 cpos [8] ⟨[], [], 0⟩ rc hcont hgc herrc hnextc hfc
  have hroot : getIFDTreeIter buf o (4294967294 + 1 + 1) 8 .tiff [] ⟨[], [], 0⟩ =
      IterResult.ok
        (.mk r.ifd (.tiffRec .tiff) [(f.tag, .mk rc.ifd (.tiffRec .tiff) [] none)] none)
        (cpos :: [8]) maker2 := by
    rw [getIFDTreeIter.eq_def, if_neg (by simp)]
    dsimp only
    rw [if_pos rfl, hg]
    dsimp only
    rw [herr]
    dsimp only
    rw [hfs, getSubIFDsLoop, if_pos hifd, hcount]
    rw [show (1 : Nat) = 0 + 1 from rfl, getSubIFDJLoop, hlong]
    dsimp only
    rw [hsub, hiterc]
    dsimp only
    rw [getSubIFDJLoop]
    dsimp only
    rw [getSubIFDsLoop]
    dsimp only
    rw [hnext]
    simp
  unfold GetIFDTree
  rw [getIFDTreeFueled]
  have hfu : ifdTreeIterFuel = 4294967294 + 1 + 1 := rfl
  rw [hfu, hroot]
  dsimp only
  have hp0 : maker2.position = 0 := hpc
  rw [if_neg (by simp [hp0])]

/-- C1 counterexample: parsing the demo buffer, fixing the tree (a no-op
here) and reserializing moves the child IFD from offset 40 to offset 26, so
the serializer rewrites the SubIFDs pointer field data and the re-parsed
tree differs structurally from the Fix-ed original in that field; the claim
promises structural equality for every well-formed input. -/
theorem putIFDTree_roundtrip_counterexample :
    ∃ B2 e,
      GetIFDTree demoC1Buf ByteOrder.little 8 .tiff =
        TreeResult.res (some demoRoot) none ∧
      IFDNode.Fix demoRoot = some demoRoot ∧
      8 + IFDNode.TreeSize demoRoot = 44 ∧
      IFDNode.PutIFDTree demoRoot (List.replicate 44 0) 8 = some (B2, e) ∧
      GetIFDTree B2 ByteOrder.little 8 .tiff =
        TreeResult.res (some demoRoot2) none ∧
      demoRoot2.ifd.fields ≠ demoRoot.ifd.fields := by
  refine ⟨demoOutBuf, 44, ?_, ?_, ?_, ?_, ?_, ?_⟩
  · have hg : GetIFD demoC1Buf ByteOrder.little 8 TIFFImageData =
        some ⟨⟨ByteOrder.little, [⟨330, 4, 1, [40, 0, 0, 0]⟩], []⟩, 0, none, 0⟩ := by
      decide
    have hgc : GetIFD demoC1Buf ByteOrder.little 40 TIFFImageData =
        some ⟨⟨ByteOrder.little, [⟨259, 3, 1, [1, 0]⟩], []⟩, 0, none, 0⟩ := by decide
    exact getIFDTree_oneSub demoC1Buf ByteOrder.little
      ⟨⟨ByteOrder.little, [⟨330, 4, 1, [40, 0, 0, 0]⟩], []⟩, 0, none, 0⟩
      ⟨⟨ByteOrder.little, [⟨259, 3, 1, [1, 0]⟩], []⟩, 0, none, 0⟩
      ⟨330, 4, 1, [40, 0, 0, 0]⟩ 40 hg rfl rfl rfl (by decide) rfl (by decide)
      (by decide) (by decide) hgc rfl rfl
      (by intro g hgm
          simp only [List.mem_singleton] at hgm
          subst hgm
          exact ⟨by decide, by decide⟩)
  · rfl
  · rfl
  · have h := putTree_oneSub ⟨ByteOrder.little, [⟨330, 4, 1, [40, 0, 0, 0]⟩], []⟩
      ⟨ByteOrder.little, [⟨259, 3, 1, [1, 0]⟩], []⟩ .tiff .tiff 330
      (List.replicate 44 0) 8
    rw [show demoRoot = .mk ⟨ByteOrder.little, [⟨330, 4, 1, [40, 0, 0, 0]⟩], []⟩
      (.tiffRec .tiff)
      [(330, .mk ⟨ByteOrder.little, [⟨259, 3, 1, [1, 0]⟩], []⟩ (.tiffRec .tiff) [] none)]
      none from rfl, h]
    decide
  · have hg : GetIFD demoOutBuf ByteOrder.little 8 TIFFImageData =
        some ⟨⟨ByteOrder.little, [⟨330, 4, 1, [26, 0, 0, 0]⟩], []⟩, 0, none, 0⟩ := by
      decide
    have hgc : GetIFD demoOutBuf ByteOrder.little 26 TIFFImageData =
        some ⟨⟨ByteOrder.little, [⟨259, 3, 1, [1, 0]⟩], []⟩, 0, none, 0⟩ := by decide
    exact getIFDTree_oneSub demoOutBuf ByteOrder.little
      ⟨⟨ByteOrder.little, [⟨330, 4, 1, [26, 0, 0, 0]⟩], []⟩, 0, none, 0⟩
      ⟨⟨ByteOrder.little, [⟨259, 3, 1, [1, 0]⟩], []⟩, 0, none, 0⟩
      ⟨330, 4, 1, [26, 0, 0, 0]⟩ 26 hg rfl rfl rfl (by decide) rfl (by decide)
      (by decide) (by decide) hgc rfl rfl
      (by intro g hgm
          simp only [List.mem_singleton] at hgm
          subst hgm
          exact ⟨by decide, by decide⟩)
  · decide

end Tiff66
